import Mathlib

/-!
Verification development for the resoto query model and benchmark inspector.

The definitions below are a shallow embedding of
src/resotocore/core/query/model.py (query AST, builder and rewriter) and
src/resotocore/resotocore/report/inspector_service.py (benchmark inspector).
Python strings are modelled as Lean String values; Python string primitives
(startswith, slicing, len, split, substring membership) are modelled over the
character list of the string, matching Python's code-point semantics.
Python dicts are modelled as insertion-ordered association lists with the
CPython semantics: assignment to an existing key updates the value in place,
assignment to a fresh key appends, pop removes the key.
Python exceptions are modelled with Except String.
-/

namespace Resoto

/-! ## Python string primitives -/

/-- Python str.startswith: prefix test on the code points. -/
def pyStartsWith (s pre : String) : Bool :=
  pre.data.isPrefixOf s.data

/-- Python slicing s[k:] on code points. -/
def pyDrop (s : String) (k : Nat) : String :=
  ⟨s.data.drop k⟩

/-- Python len(s): number of code points. -/
def pyLen (s : String) : Nat :=
  s.data.length

/-- Python substring membership (sub in s). -/
def pyIn (sub s : String) : Bool :=
  decide (sub.data <:+: s.data)

/-- Split a character list at the first occurrence of c; none if c does not occur. -/
def splitOnceChar (c : Char) : List Char → Option (List Char × List Char)
  | [] => none
  | x :: xs =>
    if x = c then some ([], xs)
    else (splitOnceChar c xs).map (fun pr => (x :: pr.1, pr.2))

/-- Python s.split(".", 2): at most two splits, hence between one and three pieces. -/
def pySplitDot2 (s : String) : List String :=
  match splitOnceChar '.' s.data with
  | none => [s]
  | some (a, rest) =>
    match splitOnceChar '.' rest with
    | none => [⟨a⟩, ⟨rest⟩]
    | some (b, rest2) => [⟨a⟩, ⟨b⟩, ⟨rest2⟩]

/-! ## JSON values (core.types.Json / JsonElement) -/

mutual
/-- JSON-like values used for predicate values, arguments and resource rows. -/
inductive Json where
  | null : Json
  | bool (b : Bool) : Json
  | num (n : Int) : Json
  | str (s : String) : Json
  | arr (elements : JsonList) : Json
  | obj (fields : JsonFields) : Json

/-- List of JSON values (own inductive to keep recursion structural). -/
inductive JsonList where
  | nil : JsonList
  | cons (hd : Json) (tl : JsonList) : JsonList

/-- Fields of a JSON object in insertion order. -/
inductive JsonFields where
  | nil : JsonFields
  | cons (key : String) (value : Json) (rest : JsonFields) : JsonFields
end

mutual
/-- Boolean structural equality of JSON values. -/
def Json.beq : Json → Json → Bool
  | .null, .null => true
  | .bool a, .bool b => a = b
  | .num a, .num b => a = b
  | .str a, .str b => a = b
  | .arr a, .arr b => JsonList.beq a b
  | .obj a, .obj b => JsonFields.beq a b
  | _, _ => false

def JsonList.beq : JsonList → JsonList → Bool
  | .nil, .nil => true
  | .cons x xs, .cons y ys => Json.beq x y && JsonList.beq xs ys
  | _, _ => false

def JsonFields.beq : JsonFields → JsonFields → Bool
  | .nil, .nil => true
  | .cons k v rest, .cons k' v' rest' =>
      k = k' && Json.beq v v' && JsonFields.beq rest rest'
  | _, _ => false
end

mutual
theorem Json.beq_iff : ∀ a b : Json, Json.beq a b = true ↔ a = b
  | .null, b => by cases b <;> simp [Json.beq]
  | .bool x, b => by cases b <;> simp [Json.beq]
  | .num x, b => by cases b <;> simp [Json.beq]
  | .str x, b => by cases b <;> simp [Json.beq]
  | .arr x, b => by cases b <;> simp [Json.beq, JsonList.beq_iff_list x]
  | .obj x, b => by cases b <;> simp [Json.beq, JsonFields.beq_iff_fields x]

theorem JsonList.beq_iff_list : ∀ a b : JsonList, JsonList.beq a b = true ↔ a = b
  | .nil, b => by cases b <;> simp [JsonList.beq]
  | .cons x xs, b => by
      cases b <;> simp [JsonList.beq, Json.beq_iff x, JsonList.beq_iff_list xs]

theorem JsonFields.beq_iff_fields : ∀ a b : JsonFields, JsonFields.beq a b = true ↔ a = b
  | .nil, b => by cases b <;> simp [JsonFields.beq]
  | .cons k v rest, b => by
      cases b <;>
        simp [JsonFields.beq, Json.beq_iff v, JsonFields.beq_iff_fields rest, and_assoc]
end

instance : DecidableEq Json := fun a b => decidable_of_iff _ (Json.beq_iff a b)

instance : DecidableEq JsonList := fun a b => decidable_of_iff _ (JsonList.beq_iff_list a b)

instance : DecidableEq JsonFields := fun a b => decidable_of_iff _ (JsonFields.beq_iff_fields a b)

/-- A JsonList from a Lean list. -/
def JsonList.ofList : List Json → JsonList
  | [] => .nil
  | j :: rest => .cons j (ofList rest)

/-- A JSON object from a list of fields. -/
def JsonFields.ofList : List (String × Json) → JsonFields
  | [] => .nil
  | (k, v) :: rest => .cons k v (ofList rest)

/-- A JSON array of strings. -/
def Json.strArr (l : List String) : Json :=
  .arr (JsonList.ofList (l.map .str))

/-- Python truthiness of a JSON value (None, False, 0, "", [], {} are falsy). -/
def Json.truthy : Json → Bool
  | .null => false
  | .bool b => b
  | .num n => n ≠ 0
  | .str s => s ≠ ""
  | .arr .nil => false
  | .arr (.cons _ _) => true
  | .obj .nil => false
  | .obj (.cons _ _ _) => true

/-- Lookup of a key in a JSON object; none for missing keys and non-objects. -/
def Json.get : Json → String → Option Json
  | .obj fields, key => getFields fields key
  | _, _ => none
where
  getFields : JsonFields → String → Option Json
    | .nil, _ => none
    | .cons k v rest, key => if k = key then some v else getFields rest key

/-- Follow a path of keys through nested JSON objects (core.util.value_in_path). -/
def value_in_path (j : Json) : List String → Option Json
  | [] => some j
  | k :: rest =>
    match j.get k with
    | some v => value_in_path v rest
    | none => none

/-! ## Constants (core.model.graph_access, modelled from the spec: the
EdgeType and Direction constant tables are not part of the given sources;
only distinctness of the string values matters here). -/

def EdgeType.default : String := "default"

def Direction.outbound : String := "out"

def Direction.inbound : String := "in"

def Direction.any : String := "inout"

def PathRoot : String := "/"

def SortOrder.Asc : String := "asc"

def SortOrder.Desc : String := "desc"

/-! ## Variable sectioning (core/query/model.py, variable_to_absolute /
variable_to_relative). The section argument of variable_to_absolute is
optional; Python truthiness of the section string is modelled explicitly. -/

/-- variable_to_absolute(section, name) from core/query/model.py; sectn is
the section parameter (a reserved word in Lean). -/
def variable_to_absolute (sectn : Option String) (name : String) : String :=
  if pyStartsWith name PathRoot then pyDrop name 1
  else
    match sectn with
    | some s => if s ≠ "" ∧ s ≠ PathRoot then s ++ "." ++ name else name
    | none => name

/-- variable_to_relative(section, name) from core/query/model.py. -/
def variable_to_relative (sectn : String) (name : String) : String :=
  if pyStartsWith name PathRoot then name
  else if pyStartsWith name (sectn ++ ".") then pyDrop name (pyLen sectn + 1)
  else PathRoot ++ name

/-! ## Plain query-model records (Navigation, WithClauseFilter, Sort,
aggregates). Sort is named Sorting since Sort is reserved in Lean. -/

/-- Navigation of core/query/model.py; untl models the field named until. -/
structure Navigation where
  start : Int := 1
  untl : Int := 1
  edge_type : String := EdgeType.default
  direction : String := Direction.outbound
  deriving DecidableEq, Repr

/-- Maximum level of navigation (Navigation.Max). -/
def Navigation.Max : Int := 10000

structure WithClauseFilter where
  op : String
  num : Int
  deriving DecidableEq, Repr

/-- The Sort record of core/query/model.py (Sort is reserved in Lean). -/
structure Sorting where
  name : String
  order : String := SortOrder.Asc
  deriving DecidableEq, Repr

def Sorting.change_variable (f : String → String) (s : Sorting) : Sorting :=
  { s with name := f s.name }

structure AggregateVariableName where
  name : String
  deriving DecidableEq, Repr

def AggregateVariableName.change_variable (f : String → String)
    (v : AggregateVariableName) : AggregateVariableName :=
  ⟨f v.name⟩

/-- One part of an AggregateVariableCombined: a literal string or a variable. -/
inductive AVCPart where
  | lit (s : String) : AVCPart
  | var (v : AggregateVariableName) : AVCPart
  deriving DecidableEq, Repr

def AVCPart.change_variable (f : String → String) : AVCPart → AVCPart
  | .lit s => .lit s
  | .var v => .var (v.change_variable f)

structure AggregateVariableCombined where
  parts : List AVCPart
  deriving DecidableEq, Repr

def AggregateVariableCombined.change_variable (f : String → String)
    (c : AggregateVariableCombined) : AggregateVariableCombined :=
  ⟨c.parts.map (AVCPart.change_variable f)⟩

/-- The name of an AggregateVariable: a plain name or a combined template. -/
inductive AggVarName where
  | plain (n : AggregateVariableName) : AggVarName
  | combined (c : AggregateVariableCombined) : AggVarName
  deriving DecidableEq, Repr

def AggVarName.change_variable (f : String → String) : AggVarName → AggVarName
  | .plain n => .plain (n.change_variable f)
  | .combined c => .combined (c.change_variable f)

structure AggregateVariable where
  name : AggVarName
  as_name : Option String := none
  deriving DecidableEq, Repr

def AggregateVariable.change_variable (f : String → String)
    (v : AggregateVariable) : AggregateVariable :=
  { v with name := v.name.change_variable f }

/-- AggregateFunction.name is a string or an int. -/
inductive StrOrInt where
  | str (s : String) : StrOrInt
  | int (i : Int) : StrOrInt
  deriving DecidableEq, Repr

structure AggregateFunction where
  function : String
  name : StrOrInt
  ops : List (String × Int) := []
  as_name : Option String := none
  deriving DecidableEq, Repr

/-- change_variable of AggregateFunction: only applied when name is a string. -/
def AggregateFunction.change_variable (f : String → String)
    (a : AggregateFunction) : AggregateFunction :=
  match a.name with
  | .str s => { a with name := .str (f s) }
  | .int _ => a

structure Aggregate where
  group_by : List AggregateVariable
  group_func : List AggregateFunction
  deriving DecidableEq, Repr

def Aggregate.change_variable (f : String → String) (a : Aggregate) : Aggregate :=
  ⟨a.group_by.map (AggregateVariable.change_variable f),
   a.group_func.map (AggregateFunction.change_variable f)⟩

/-! ## The mutually recursive query AST (Term, MergeQuery, WithClause, Part,
Query of core/query/model.py). Nested lists and options are unfolded into
dedicated inductives so that all recursion stays structural. -/

mutual
/-- The Term sum type of core/query/model.py. -/
inductive Term where
  | AllTerm : Term
  | NotTerm (term : Term) : Term
  | Predicate (name : String) (op : String) (value : Json)
      (args : List (String × Json)) : Term
  | IsTerm (kinds : List String) : Term
  | IdTerm (id : String) : Term
  | FunctionTerm (fn : String) (property_path : String) (args : List Json) : Term
  | CombinedTerm (left : Term) (op : String) (right : Term) : Term
  | MergeTerm (pre_filter : Term) (merge : List MergeQuery)
      (post_filter : Option Term) : Term

/-- MergeQuery of core/query/model.py. -/
inductive MergeQuery where
  | mk (name : String) (query : Query) (only_first : Bool) : MergeQuery

/-- WithClause of core/query/model.py. -/
inductive WithClause where
  | mk (with_filter : WithClauseFilter) (navigation : Navigation)
      (term : Option Term) (with_clause : Option WithClause) : WithClause

/-- Part of core/query/model.py. -/
inductive Part where
  | mk (term : Term) (tag : Option String) (with_clause : Option WithClause)
      (sort : List Sorting) (limit : Option Int) (navigation : Option Navigation) : Part

/-- Query of core/query/model.py. Parts are stored in reverse execution
order: index 0 is the current part. Construction in Python rejects an empty
parts list; theorems below carry that invariant as a hypothesis. -/
inductive Query where
  | mk (parts : List Part) (preamble : List (String × Json))
      (aggregate : Option Aggregate) : Query
end

def MergeQuery.name : MergeQuery → String
  | .mk n _ _ => n

def MergeQuery.query : MergeQuery → Query
  | .mk _ q _ => q

def MergeQuery.only_first : MergeQuery → Bool
  | .mk _ _ o => o

def Part.term : Part → Term
  | .mk t _ _ _ _ _ => t

def Part.tag : Part → Option String
  | .mk _ tg _ _ _ _ => tg

def Part.with_clause : Part → Option WithClause
  | .mk _ _ wc _ _ _ => wc

def Part.sort : Part → List Sorting
  | .mk _ _ _ s _ _ => s

def Part.limit : Part → Option Int
  | .mk _ _ _ _ l _ => l

def Part.navigation : Part → Option Navigation
  | .mk _ _ _ _ _ n => n

/-- dataclasses.replace(part, term=t). -/
def Part.with_term (t : Term) : Part → Part
  | .mk _ tg wc s l n => .mk t tg wc s l n

/-- dataclasses.replace(part, navigation=n). -/
def Part.with_navigation (n : Option Navigation) : Part → Part
  | .mk t tg wc s l _ => .mk t tg wc s l n

def Query.parts : Query → List Part
  | .mk p _ _ => p

def Query.preamble : Query → List (String × Json)
  | .mk _ p _ => p

def Query.aggregate : Query → Option Aggregate
  | .mk _ _ a => a

/-- Query.by(term): a query with a single part holding the term. -/
def Query.by (term : Term) : Query :=
  .mk [.mk term none none [] none none] [] none

/-- The current part of a query is parts[0]; the empty case is unreachable
for queries built through the Python constructor. -/
def Query.current_part (q : Query) : Part :=
  match q.parts with
  | p :: _ => p
  | [] => .mk .AllTerm none none [] none none

/-! ## Term algebra: and_term and or_term with AllTerm simplification. -/

/-- Term.and_term: AllTerm is the identity of and. -/
def Term.and_term : Term → Term → Term
  | .AllTerm, other => other
  | t, .AllTerm => t
  | t, other => .CombinedTerm t "and" other

/-- Term.or_term: AllTerm absorbs or. -/
def Term.or_term : Term → Term → Term
  | .AllTerm, _ => .AllTerm
  | _, .AllTerm => .AllTerm
  | t, other => .CombinedTerm t "or" other

/-! ## Variable rewriting (change_variable across the whole AST). -/

mutual
/-- Term.change_variable of core/query/model.py. -/
def Term.change_variable (f : String → String) : Term → Term
  | .AllTerm => .AllTerm
  | .NotTerm t => .NotTerm (t.change_variable f)
  | .Predicate n op v args => .Predicate (f n) op v args
  | .IsTerm ks => .IsTerm ks
  | .IdTerm i => .IdTerm i
  | .FunctionTerm fn p args => .FunctionTerm fn (f p) args
  | .CombinedTerm l op r => .CombinedTerm (l.change_variable f) op (r.change_variable f)
  | .MergeTerm pre merge post =>
      .MergeTerm (pre.change_variable f) (changeVarMergeList f merge)
        (changeVarOptTerm f post)

/-- change_variable mapped over a merge-query list. -/
def changeVarMergeList (f : String → String) : List MergeQuery → List MergeQuery
  | [] => []
  | mq :: rest => mq.change_variable f :: changeVarMergeList f rest

/-- change_variable mapped over an optional term. -/
def changeVarOptTerm (f : String → String) : Option Term → Option Term
  | none => none
  | some t => some (t.change_variable f)

/-- MergeQuery.change_variable: rewrite the embedded query. -/
def MergeQuery.change_variable (f : String → String) : MergeQuery → MergeQuery
  | .mk n q fst => .mk n (q.change_variable f) fst

/-- Query.change_variable: rewrite aggregate and all parts. -/
def Query.change_variable (f : String → String) : Query → Query
  | .mk parts pre agg =>
      .mk (changeVarPartList f parts) pre (agg.map (Aggregate.change_variable f))

/-- change_variable mapped over a part list. -/
def changeVarPartList (f : String → String) : List Part → List Part
  | [] => []
  | p :: rest => p.change_variable f :: changeVarPartList f rest

/-- Part.change_variable: rewrite term, with_clause and sorts. -/
def Part.change_variable (f : String → String) : Part → Part
  | .mk t tg wc s l n =>
      .mk (t.change_variable f) tg (changeVarOptWithClause f wc)
        (s.map (Sorting.change_variable f)) l n

/-- change_variable mapped over an optional with-clause. -/
def changeVarOptWithClause (f : String → String) : Option WithClause → Option WithClause
  | none => none
  | some wc => some (wc.change_variable f)

/-- WithClause.change_variable: rewrite term and nested with-clause. -/
def WithClause.change_variable (f : String → String) : WithClause → WithClause
  | .mk wf nav t wc =>
      .mk wf nav (changeVarOptTerm f t) (changeVarOptWithClause f wc)
end

/-- Query.on_section(section): make all variable names absolute. -/
def Query.on_section (sectn : Option String) (q : Query) : Query :=
  let root_or_section :=
    match sectn with
    | none => none
    | some s => if s = PathRoot then none else some s
  q.change_variable (variable_to_absolute root_or_section)

/-- Query.relative_to_section(section): make all variable names relative. -/
def Query.relative_to_section (sectn : String) (q : Query) : Query :=
  if sectn ≠ PathRoot then q.change_variable (variable_to_relative sectn) else q

/-! ## varsOk: a predicate holds of every variable name that change_variable
would touch. Used to state the section round-trip result. -/

def AggregateFunction.varsOk (p : String → Bool) (a : AggregateFunction) : Bool :=
  match a.name with
  | .str s => p s
  | .int _ => true

def AggregateVariable.varsOk (p : String → Bool) (v : AggregateVariable) : Bool :=
  match v.name with
  | .plain n => p n.name
  | .combined c => c.parts.all fun pt =>
      match pt with
      | .lit _ => true
      | .var n => p n.name

def Aggregate.varsOk (p : String → Bool) (a : Aggregate) : Bool :=
  a.group_by.all (AggregateVariable.varsOk p) &&
    a.group_func.all (AggregateFunction.varsOk p)

mutual
/-- All variable names of a term satisfy p. -/
def Term.varsOk (p : String → Bool) : Term → Bool
  | .AllTerm => true
  | .NotTerm t => t.varsOk p
  | .Predicate n _ _ _ => p n
  | .IsTerm _ => true
  | .IdTerm _ => true
  | .FunctionTerm _ pp _ => p pp
  | .CombinedTerm l _ r => l.varsOk p && r.varsOk p
  | .MergeTerm pre merge post =>
      pre.varsOk p && varsOkMergeList p merge && varsOkOptTerm p post

def varsOkMergeList (p : String → Bool) : List MergeQuery → Bool
  | [] => true
  | mq :: rest => mq.varsOk p && varsOkMergeList p rest

def varsOkOptTerm (p : String → Bool) : Option Term → Bool
  | none => true
  | some t => t.varsOk p

def MergeQuery.varsOk (p : String → Bool) : MergeQuery → Bool
  | .mk _ q _ => q.varsOk p

def Query.varsOk (p : String → Bool) : Query → Bool
  | .mk parts _ agg =>
      varsOkPartList p parts &&
        (match agg with
         | none => true
         | some a => a.varsOk p)

def varsOkPartList (p : String → Bool) : List Part → Bool
  | [] => true
  | pt :: rest => pt.varsOk p && varsOkPartList p rest

def Part.varsOk (p : String → Bool) : Part → Bool
  | .mk t _ wc s _ _ =>
      t.varsOk p && varsOkOptWithClause p wc && s.all fun srt => p srt.name

def varsOkOptWithClause (p : String → Bool) : Option WithClause → Bool
  | none => true
  | some wc => wc.varsOk p

def WithClause.varsOk (p : String → Bool) : WithClause → Bool
  | .mk _ _ t wc => varsOkOptTerm p t && varsOkOptWithClause p wc
end

/-! ## Query builder operations (filter, traverse). -/

/-- Query.mk_term folds terms into a left-associated and-combination. -/
def Query.mk_term (term : Term) (terms : List Term) : Term :=
  terms.foldl (fun l r => .CombinedTerm l "and" r) term

/-- Query.filter(term): AND into the current part when it has no navigation,
otherwise prepend a fresh part. The empty-parts case is unreachable. -/
def Query.filter (q : Query) (term : Term) : Query :=
  let res := Query.mk_term term []
  match q.parts with
  | [] => q
  | first :: restParts =>
    if first.navigation = none then
      .mk (.mk (.CombinedTerm first.term "and" res) none none [] none none :: restParts)
        q.preamble q.aggregate
    else
      .mk (.mk res none none [] none none :: first :: restParts) q.preamble q.aggregate

/-- Query.traverse(start, until, edge_type, direction). -/
def Query.traverse (q : Query) (start untl : Int) (edge_type : String)
    (direction : String) : Query :=
  match q.parts with
  | [] => q
  | p0 :: rest =>
    match p0.navigation with
    | some nav =>
      if nav.edge_type = edge_type ∧ nav.direction = direction then
        .mk (p0.with_navigation (some
              ⟨min Navigation.Max (start + nav.start),
               min Navigation.Max (untl + nav.untl), edge_type, direction⟩) :: rest)
          q.preamble q.aggregate
      else
        .mk (.mk .AllTerm none none [] none (some ⟨start, untl, edge_type, direction⟩)
              :: p0 :: rest) q.preamble q.aggregate
    | none =>
      .mk (p0.with_navigation (some ⟨start, untl, edge_type, direction⟩) :: rest)
        q.preamble q.aggregate

/-- Query.traverse_out(start, until, edge_type). -/
def Query.traverse_out (q : Query) (start untl : Int) (edge_type : String) : Query :=
  q.traverse start untl edge_type Direction.outbound

/-! ## Python dict operations on insertion-ordered association lists. -/

/-- CPython dict assignment d[k] = v: update in place or append. -/
def pyInsert {κ α : Type} [DecidableEq κ] : List (κ × α) → κ → α → List (κ × α)
  | [], k, v => [(k, v)]
  | (k', v') :: rest, k, v =>
    if k' = k then (k, v) :: rest else (k', v') :: pyInsert rest k v

/-- CPython dict update {**m, **l}: insert the items of l into m in order. -/
def pyUpdate {κ α : Type} [DecidableEq κ] (m l : List (κ × α)) : List (κ × α) :=
  l.foldl (fun acc e => pyInsert acc e.1 e.2) m

/-- A dict built from a list of key-value pairs (a dict comprehension). -/
def pyDictOf {κ α : Type} [DecidableEq κ] (l : List (κ × α)) : List (κ × α) :=
  pyUpdate [] l

/-- CPython dict pop(k, None): drop the entry of key k. -/
def pyPop {κ α : Type} [DecidableEq κ] (m : List (κ × α)) (k : κ) : List (κ × α) :=
  m.filter fun e => e.1 ≠ k

/-- Distinct values in first-occurrence order: the key order produced by
core.util.group_by (an insertion-ordered grouping; not part of the given
sources, behaviour is standard). -/
def dedupFirst {α : Type} [DecidableEq α] : List α → List α
  | [] => []
  | x :: xs => x :: dedupFirst (xs.filter fun y => y ≠ x)
termination_by l => l.length
decreasing_by
  simp only [List.length_cons]
  have := List.length_filter_le (fun y => decide (y ≠ x)) xs
  omega

/-- Sequential mapM over Except: the first error propagates, as a Python
loop raising an exception would. -/
def mapMExcept {α β : Type} (f : α → Except String β) : List α → Except String (List β)
  | [] => .ok []
  | x :: xs => do
    let y ← f x
    let ys ← mapMExcept f xs
    .ok (y :: ys)

/-! ## Ancestor/descendant lifting (Part.rewrite_for_ancestors_descendants).
The set GraphResolver.resolved_property_names lives in a file that is not
part of the given sources; it is passed in as the parameter resolved. -/

/-- A predicate name in the magic ancestors/descendants namespace that is not
a resolved property name. -/
def is_ancestor_descendant (resolved : List String) (name : String) : Bool :=
  !(resolved.contains name) &&
    (pyStartsWith name "ancestors." || pyStartsWith name "descendants.")

/-- has_ancestor_descendant of the rewriter. -/
def has_ancestor_descendant (resolved : List String) : Term → Bool
  | .Predicate n _ _ _ => is_ancestor_descendant resolved n
  | .CombinedTerm l _ r =>
      has_ancestor_descendant resolved l || has_ancestor_descendant resolved r
  | .MergeTerm pre _ none => has_ancestor_descendant resolved pre
  | .MergeTerm pre _ (some post) =>
      has_ancestor_descendant resolved pre || has_ancestor_descendant resolved post
  | .NotTerm t => has_ancestor_descendant resolved t
  | _ => false

/-- ancestor_descendant_predicates of the rewriter: collect the matching
predicate terms in traversal order. -/
def ancestor_descendant_predicates (resolved : List String) : Term → List Term
  | .Predicate n op v args =>
      if is_ancestor_descendant resolved n then [.Predicate n op v args] else []
  | .CombinedTerm l _ r =>
      ancestor_descendant_predicates resolved l ++ ancestor_descendant_predicates resolved r
  | .MergeTerm pre _ none => ancestor_descendant_predicates resolved pre
  | .MergeTerm pre _ (some post) =>
      ancestor_descendant_predicates resolved pre ++
        ancestor_descendant_predicates resolved post
  | .NotTerm t => ancestor_descendant_predicates resolved t
  | _ => []

/-- Termination measure for walk_term: a MergeTerm with post filter weighs
more than the and-combination of its pre and post filters. -/
def Term.wsize : Term → Nat
  | .CombinedTerm l _ r => 1 + l.wsize + r.wsize
  | .MergeTerm pre _ none => 1 + pre.wsize
  | .MergeTerm pre _ (some post) => 2 + pre.wsize + post.wsize
  | _ => 0

/-- walk_term of the rewriter, with the state (before_merge, after_merge)
passed explicitly. The unsound-logic branch raises NotImplementedError in
Python; it is modelled as an error. -/
def walk_term (resolved : List String) : Term → Term × Term → Except String (Term × Term)
  | t@(.CombinedTerm l op r), (b, a) =>
    if op = "or" then .ok (b, a.and_term t)
    else
      if has_ancestor_descendant resolved l then
        if has_ancestor_descendant resolved r then do
          let s1 ← walk_term resolved l (b, a)
          walk_term resolved r s1
        else walk_term resolved l (b.and_term r, a)
      else
        if has_ancestor_descendant resolved r then
          walk_term resolved r (b.and_term l, a)
        else .error "Logic unsound. This case should not happen!"
  | .MergeTerm pre _ (some post), s =>
      walk_term resolved (.CombinedTerm pre "and" post) s
  | .MergeTerm pre _ none, s => walk_term resolved pre s
  | t, (b, a) => .ok (b, a.and_term t)
termination_by t _ => t.wsize
decreasing_by all_goals (simp [Term.wsize]; try omega)

/-- name_predicate of the rewriter: split the predicate name into the
(ancestors|descendants, kind) group key; raises ValueError when the name has
fewer than three dot-separated segments. -/
def name_predicate : Term → Except String (String × String)
  | .Predicate n _ _ _ =>
    match pySplitDot2 n with
    | [a, k, _] => .ok (a, k)
    | _ => .error "not enough values to unpack (expected 3)"
  | _ => .error "name_predicate applied to a non-predicate"

/-- merge_query_for of the rewriter. The try/except inside the Python
function can never fire (nothing in the body raises ValueError), so the
modelled function is total. -/
def merge_query_for (anc_dec kind : String) : MergeQuery :=
  let direction := if anc_dec = "ancestors" then Direction.inbound else Direction.outbound
  let navigation : Navigation := ⟨1, Navigation.Max, EdgeType.default, direction⟩
  let subquery : Query :=
    .mk [.mk (.IsTerm [kind]) none none [] none none,
         .mk .AllTerm none none [] none (some navigation)] [] none
  .mk (anc_dec ++ "." ++ kind) subquery true

/-- The merge list of a term: the merge queries when it is a MergeTerm. -/
def Term.merges : Term → List MergeQuery
  | .MergeTerm _ m _ => m
  | _ => []

/-- Part.rewrite_for_ancestors_descendants of core/query/model.py. -/
def Part.rewrite_for_ancestors_descendants (resolved : List String) (p : Part) :
    Except String Part :=
  if has_ancestor_descendant resolved p.term then do
    let s ← walk_term resolved p.term (.AllTerm, .AllTerm)
    let before_merge := s.1
    let after_merge := s.2
    let names ← mapMExcept name_predicate
      (ancestor_descendant_predicates resolved after_merge)
    let predicates := dedupFirst names
    let existing := pyDictOf (p.term.merges.map fun mq => (mq.name, mq))
    let created := pyDictOf
      (((predicates.map fun g => merge_query_for g.1 g.2).map fun mq => (mq.name, mq)))
    let queries := (pyUpdate created existing).map Prod.snd
    .ok (p.with_term (.MergeTerm before_merge queries (some after_merge)))
  else .ok p

/-! ## Query.combine. combine_optional of core.util is not part of the given
sources; sorts concatenate and the tighter limit wins, modelled from the
spec. Python truthiness of the optional tag string is modelled explicitly. -/

/-- Truthiness of an optional string (None and "" are falsy). -/
def optStrTruthy : Option String → Bool
  | none => false
  | some s => s ≠ ""

/-- Query.combine(other): compose two queries, other before self. -/
def Query.combine (self other : Query) : Except String Query :=
  let preamble := pyUpdate self.preamble other.preamble
  if self.aggregate.isSome ∧ other.aggregate.isSome then
    .error "Can not combine 2 aggregations!"
  else
    let aggregate := if self.aggregate.isSome then self.aggregate else other.aggregate
    match self.parts, other.parts.getLast? with
    | left_last :: _, some right_first =>
      if left_last.navigation.isSome then
        .ok (.mk (other.parts ++ self.parts) preamble aggregate)
      else
        if left_last.with_clause.isSome ∧ right_first.with_clause.isSome then
          .error "Can not combine 2 with clauses!"
        else if optStrTruthy left_last.tag ∧ optStrTruthy right_first.tag then
          .error "Can not combine 2 tag clauses!"
        else
          let term := left_last.term.and_term right_first.term
          let tag := if optStrTruthy left_last.tag then left_last.tag else right_first.tag
          let with_clause :=
            if left_last.with_clause.isSome then left_last.with_clause
            else right_first.with_clause
          let sort := left_last.sort ++ right_first.sort
          let limit :=
            match left_last.limit, right_first.limit with
            | some l, some r => some (min l r)
            | some l, none => some l
            | none, r => r
          let combined : Part := .mk term tag with_clause sort limit right_first.navigation
          .ok (.mk (other.parts.dropLast ++ [combined] ++ self.parts.drop 1)
            preamble aggregate)
    | _, _ => .error "list index out of range"

/-! ## Report entities. Modelled from the spec: ReportSeverity, ReportCheck,
Remediation and Benchmark live in resotocore/report/__init__.py, which is not
part of the given sources; their shapes follow section 3 of the spec. The
inspector functions below follow resotocore/report/inspector_service.py. -/

/-- Modelled from the spec: severity enum, totally ordered by a fixed
priority table (info < low < medium < high < critical). -/
inductive ReportSeverity where
  | info : ReportSeverity
  | low : ReportSeverity
  | medium : ReportSeverity
  | high : ReportSeverity
  | critical : ReportSeverity
  deriving DecidableEq, Repr

/-- Modelled from the spec: the fixed priority table of severities. -/
def ReportSeverity.prio : ReportSeverity → Nat
  | .info => 0
  | .low => 1
  | .medium => 2
  | .high => 3
  | .critical => 4

/-- Modelled from the spec: the string value of each severity. -/
def ReportSeverity.value : ReportSeverity → String
  | .info => "info"
  | .low => "low"
  | .medium => "medium"
  | .high => "high"
  | .critical => "critical"

/-- Iteration order of the ReportSeverity enum (declaration order). -/
def ReportSeverity.all : List ReportSeverity :=
  [.info, .low, .medium, .high, .critical]

/-- CheckContext of inspector_service.py. -/
structure CheckContext where
  accounts : Option (List String) := none
  severity : Option ReportSeverity := none
  only_failed : Bool := false
  parallel_checks : Nat := 10

/-- CheckContext.includes_severity of inspector_service.py. -/
def CheckContext.includes_severity (self : CheckContext)
    (severity : ReportSeverity) : Bool :=
  match self.severity with
  | none => true
  | some s => s.prio ≤ severity.prio

/-- CheckContext.severities_including of inspector_service.py. Note that the
source comprehension tests includes_severity(severity) and never uses the
iteration variable s. -/
def CheckContext.severities_including (self : CheckContext)
    (severity : ReportSeverity) : List ReportSeverity :=
  ReportSeverity.all.filter fun _ => self.includes_severity severity

/-- The severity values put into the severity-in clause that load_benchmarks
builds (line 186 of inspector_service.py): the context carries the requested
severity and severities_including is called with that same severity. -/
def load_benchmarks_severity_values (accounts : Option (List String))
    (severity : ReportSeverity) (only_failing : Bool) : List String :=
  let context : CheckContext :=
    { accounts := accounts, severity := some severity, only_failed := only_failing }
  (context.severities_including severity).map ReportSeverity.value

/-- The severity clause itself: P("severity").is_in([s.value for s in ...]). -/
def load_benchmarks_severity_clause (accounts : Option (List String))
    (severity : ReportSeverity) (only_failing : Bool) : Term :=
  .Predicate "severity" "in"
    (Json.strArr (load_benchmarks_severity_values accounts severity only_failing)) []

/-- The effect of delete_benchmark and update_benchmark on the benchmark
store, when they do not raise. -/
inductive StoreAction where
  | deleteB (bid : String) : StoreAction
  | updateB (bid : String) : StoreAction
  deriving DecidableEq, Repr

/-- InspectorService.delete_benchmark: predefined benchmarks cannot be
deleted; otherwise the deletion is delegated to the store. The predefined
table benchmarks_from_file() is passed as the list of its keys. -/
def delete_benchmark (predef : List String) (bid : String) : Except String StoreAction :=
  if predef.contains bid then
    .error ("Deleting a predefined benchmark is not allowed: " ++ bid)
  else .ok (.deleteB bid)

/-- InspectorService.update_benchmark: predefined benchmarks cannot be
changed; then validation runs (its result is passed in as invalid, the
store is abstract) and the update is delegated to the store. -/
def update_benchmark (predef : List String) (invalid : List String)
    (bid : String) : Except String StoreAction :=
  if predef.contains bid then
    .error ("Changing a predefined benchmark is not allowed: " ++ bid)
  else if invalid ≠ [] then
    .error ("Benchmark " ++ bid ++ " is invalid: " ++ String.intercalate ", " invalid)
  else .ok (.updateB bid)

/-- Modelled from the spec: remediation with text and url. -/
structure Remediation where
  text : String
  url : String
  deriving DecidableEq, Repr

/-- Modelled from the spec: the detect mapping of a check, holding at most
a resoto search string, a resoto_cmd command string and a manual flag. -/
structure Detect where
  resoto : Option String := none
  resoto_cmd : Option String := none
  manual : Bool := false
  deriving DecidableEq, Repr

/-- Modelled from the spec: the ReportCheck entity. -/
structure ReportCheck where
  id : String
  provider : String := ""
  service : String := ""
  title : String := ""
  categories : List String := []
  result_kinds : List String := []
  severity : ReportSeverity := .info
  risk : String := ""
  detect : Detect
  remediation : Remediation
  default_values : Option (List (String × Json)) := none
  deriving DecidableEq

/-- Python truthiness applied to dict.get of a string entry: a missing key
and an empty string are both falsy. -/
def truthyGet : Option String → Option String
  | none => none
  | some s => if s = "" then none else some s

/-- InspectorService.__validate_check. The template expander and the CLI
evaluator are abstract; the try block catches exactly their failures. The
severity attribute is an enum member and therefore always truthy in Python,
so the prop loop can flag id, title and risk only. -/
def validate_check (parse : String → Except String Unit)
    (evalcmd : String → Except String Unit) (check : ReportCheck) : List String :=
  let afterDetect (detect : String) : List String :=
    (if check.result_kinds = [] then
      ["Check " ++ check.id ++ " does not define any result kind"] else [])
    ++ ((check.result_kinds.filter fun rk => !(pyIn rk detect)).map
        fun rk => "Check " ++ check.id ++ " does not detect result kind " ++ rk)
    ++ (if check.remediation.text = "" then
        ["Check " ++ check.id ++ " does not define any remediation text"] else [])
    ++ (if check.remediation.url = "" then
        ["Check " ++ check.id ++ " does not define any remediation url"] else [])
    ++ (if check.id = "" then
        ["Check " ++ check.id ++ " does not define prop id"] else [])
    ++ (if check.title = "" then
        ["Check " ++ check.id ++ " does not define prop title"] else [])
    ++ (if check.risk = "" then
        ["Check " ++ check.id ++ " does not define prop risk"] else [])
  match truthyGet check.detect.resoto with
  | some search =>
    (match parse search with
     | .ok _ => afterDetect search
     | .error e => ["Check " ++ check.id ++ " is invalid: " ++ e])
  | none =>
    match truthyGet check.detect.resoto_cmd with
    | some cmd =>
      (match evalcmd cmd with
       | .ok _ => afterDetect cmd
       | .error e => ["Check " ++ check.id ++ " is invalid: " ++ e])
    | none =>
      if check.detect.manual then []
      else
        ("Check " ++ check.id ++ " neither has a resoto, resoto_cmd or manual defined")
          :: afterDetect ""

/-- The filter argument of filter_checks applied to a check; a missing
filter accepts everything. -/
def fltSat (flt : Option (ReportCheck → Bool)) (c : ReportCheck) : Bool :=
  match flt with
  | none => true
  | some f => f c

/-- InspectorService.filter_checks: file-loaded checks that pass the filter,
then each stored check first removes any entry of its id and is re-added
only when it passes the filter. -/
def filter_checks (file_checks stored : List ReportCheck)
    (flt : Option (ReportCheck → Bool)) : List ReportCheck :=
  let init := pyDictOf ((file_checks.filter (fltSat flt)).map fun c => (c.id, c))
  let final := stored.foldl (fun acc c =>
    let acc1 := pyPop acc c.id
    if fltSat flt c then pyInsert acc1 c.id c else acc1) init
  final.map Prod.snd

/-! ## Evaluation of checks (perform_benchmarks path). The graph database,
template expander and CLI are abstracted into functions; a cursor outcome is
the list of rows it delivered before terminating, together with an optional
error that ended the stream (an error when opening delivers no rows). -/

/-- The abstract collaborators of one perform_benchmarks call. -/
structure GraphEnv where
  parse : String → Except String Query
  search : Query → List Json × Option String
  cli : String → Except String (List Json)

/-- Modelled from the spec: NodePath.ancestor_account_id, the path used to
group failing resources by account. -/
def ancestor_account_id_path : List String :=
  ["ancestors", "account", "reported", "id"]

/-- Lookup with null for missing paths, as the json bender S(...) yields. -/
def jget (j : Json) (path : List String) : Json :=
  (value_in_path j path).getD .null

/-- Modelled from the spec: the fixed ReportResourceData projection applied
to every failing resource row. -/
def report_resource_data (j : Json) : Json :=
  Json.obj (JsonFields.ofList
    [("node_id", jget j ["id"]),
     ("id", jget j ["reported", "id"]),
     ("name", jget j ["reported", "name"]),
     ("kind", jget j ["reported", "kind"]),
     ("tags", jget j ["reported", "tags"]),
     ("ctime", jget j ["reported", "ctime"]),
     ("atime", jget j ["reported", "atime"]),
     ("mtime", jget j ["reported", "mtime"]),
     ("cloud", jget j ["ancestors", "cloud", "reported", "name"]),
     ("account", jget j ["ancestors", "account", "reported", "name"]),
     ("region", jget j ["ancestors", "region", "reported", "name"]),
     ("zone", jget j ["ancestors", "zone", "reported", "name"])])

/-- Python truthiness of the optional accounts list. -/
def accountsTruthy : Option (List String) → Bool
  | none => false
  | some l => l ≠ []

/-- The account restriction predicate P.single(prop).is_in(accounts). -/
def account_id_predicate (accounts : List String) : Term :=
  .Predicate "ancestors.account.reported.id" "in" (Json.strArr accounts) []

/-- The account restriction of __list_failing_resources: when accounts are
given (and non-empty, Python truthiness), the parsed query is combined with
the account predicate query. -/
def compose_account_filter (accounts : Option (List String)) (q : Query) :
    Except String Query :=
  match accounts with
  | some accs =>
    if accs ≠ [] then (Query.by (account_id_predicate accs)).combine q
    else .ok q
  | none => .ok q

/-- perform_search of __list_failing_resources: the query parse and the
account composition happen outside the try block, so their failures
propagate; opening the cursor and streaming happen inside the try block, so
a cursor failure ends the stream after the rows it delivered. -/
def perform_search (env : GraphEnv) (accounts : Option (List String))
    (search : String) : Except String (List Json) := do
  let query ← env.parse search
  let query ← compose_account_filter accounts query
  .ok (env.search query).1

/-- perform_cmd of __list_failing_resources: the CLI execution happens
outside the try block, so its failure propagates; iterating the returned
list cannot fail. -/
def perform_cmd (env : GraphEnv) (accounts : Option (List String))
    (cmd : String) : Except String (List Json) :=
  let cmd' :=
    match accounts with
    | some accs =>
      if accs ≠ [] then
        "search /ancestors.account.reported.id in [" ++
          String.intercalate "," (accs.map fun a => "\"" ++ a ++ "\"") ++ "] | " ++ cmd
      else cmd
    | none => cmd
  env.cli cmd'

/-- __list_failing_resources: dispatch on the detect mapping; a manual or
empty detection yields the empty stream. -/
def list_failing_resources_rows (env : GraphEnv) (accounts : Option (List String))
    (check : ReportCheck) : Except String (List Json) :=
  match truthyGet check.detect.resoto with
  | some s => perform_search env accounts s
  | none =>
    match truthyGet check.detect.resoto_cmd with
    | some c => perform_cmd env accounts c
    | none => .ok []

/-- A defaultdict(list) append: resources_by_account[account_id].append(v). -/
def pyAppendGroup {κ α : Type} [DecidableEq κ] :
    List (κ × List α) → κ → α → List (κ × List α)
  | [], k, v => [(k, [v])]
  | (k', vs) :: rest, k, v =>
    if k' = k then (k', vs ++ [v]) :: rest else (k', vs) :: pyAppendGroup rest k v

/-- The per-check result: failing resource projections grouped by account. -/
def SingleCheckResult := List (Json × List Json)

/-- The grouping loop of __perform_check: rows without a truthy account id
are dropped, the others are projected and grouped. -/
def group_by_account (rows : List Json) : List (Json × List Json) :=
  rows.foldl (fun acc resource =>
    match value_in_path resource ancestor_account_id_path with
    | some aid =>
      if aid.truthy then pyAppendGroup acc aid (report_resource_data resource) else acc
    | none => acc) []

/-- InspectorService.__perform_check for one check. -/
def perform_check (env : GraphEnv) (accounts : Option (List String))
    (check : ReportCheck) : Except String SingleCheckResult := do
  let rows ← list_failing_resources_rows env accounts check
  .ok (group_by_account rows)

/-- InspectorService.__perform_checks over a list of checks: any exception
escaping one check evaluation fails the whole batch. -/
def perform_checks (env : GraphEnv) (accounts : Option (List String))
    (checks : List ReportCheck) : Except String (List (String × SingleCheckResult)) :=
  mapMExcept (fun c => (perform_check env accounts c).map fun r => (c.id, r)) checks

/-- The last check of a list carrying a given id (the stored entry that ends
up deciding the dict slot of that id). -/
def lastWithId : List ReportCheck → String → Option ReportCheck
  | [], _ => none
  | c :: rest, i =>
    match lastWithId rest i with
    | some c2 => some c2
    | none => if c.id = i then some c else none

/-- The entries of an association list with a given key. -/
def keyEntries {α : Type} (m : List (String × α)) (i : String) : List (String × α) :=
  m.filter fun e => e.1 == i

/-- A conjunct that walk_term appends verbatim to the after_merge state: a
term containing an ancestor/descendant predicate that is neither an
and-combination that walk_term would split nor a MergeTerm that it would
dissolve. -/
def atomicAD (resolved : List String) (t : Term) : Bool :=
  has_ancestor_descendant resolved t &&
    (match t with
     | .CombinedTerm _ op _ => op = "or"
     | .MergeTerm _ _ _ => false
     | _ => true)

/-- A concrete environment whose cursor fails on opening (used as witness
input). -/
def cursorFailEnv : GraphEnv :=
  { parse := fun _ => .ok (Query.by .AllTerm),
    search := fun _ => ([], some "cursor error"),
    cli := fun _ => .ok [] }

/-- A concrete manual check (used as witness input). -/
def manualOnlyCheck : ReportCheck :=
  { id := "m", detect := { manual := true }, remediation := ⟨"t", "u"⟩ }

/-! # Theorems -/

/-! ## Association-list lemmas for the Python dict model -/

theorem keyEntries_nil {α : Type} (i : String) : keyEntries ([] : List (String × α)) i = [] := rfl

theorem keyEntries_append {α : Type} (m m' : List (String × α)) (i : String) :
    keyEntries (m ++ m') i = keyEntries m i ++ keyEntries m' i := by
  simp [keyEntries, List.filter_append]

theorem keyEntries_pyPop_self {α : Type} (m : List (String × α)) (i : String) :
    keyEntries (pyPop m i) i = [] := by
  induction m with
  | nil => rfl
  | cons e rest ih =>
    by_cases h : e.1 = i
    · simp only [keyEntries, pyPop] at ih ⊢
      simp [h, ih]
    · simp only [keyEntries, pyPop] at ih ⊢
      simp [h, ih]

theorem keyEntries_pyPop_ne {α : Type} (m : List (String × α)) (k i : String)
    (h : k ≠ i) : keyEntries (pyPop m k) i = keyEntries m i := by
  unfold keyEntries pyPop
  rw [List.filter_filter]
  apply List.filter_congr
  intro a _
  by_cases hi : a.1 = i
  · have hk : ¬ a.1 = k := fun hh => h (by rw [← hh, hi])
    simp [hi, hk, Ne.symm h]
  · simp [hi]

theorem keyEntries_pyInsert_ne {α : Type} (m : List (String × α)) (k i : String)
    (v : α) (h : k ≠ i) : keyEntries (pyInsert m k v) i = keyEntries m i := by
  have hik : ¬ i = k := fun hh => h hh.symm
  induction m with
  | nil => simp [keyEntries, pyInsert, hik, h]
  | cons e rest ih =>
    obtain ⟨ek, ev⟩ := e
    by_cases he : ek = k
    · subst he
      have hne : ¬ ek = i := fun hh => h (by rw [← hh])
      simp [keyEntries, pyInsert, hne]
    · by_cases hi : ek = i
      · simpa [keyEntries, pyInsert, he, hi, hik] using ih
      · simpa [keyEntries, pyInsert, he, hi, hik] using ih

theorem pyInsert_fresh {κ α : Type} [DecidableEq κ] (m : List (κ × α)) (k : κ)
    (v : α) (h : ∀ e ∈ m, e.1 ≠ k) : pyInsert m k v = m ++ [(k, v)] := by
  induction m with
  | nil => rfl
  | cons e rest ih =>
    have he : e.1 ≠ k := h e (by simp)
    obtain ⟨ek, ev⟩ := e
    simp only at he
    simp [pyInsert, he, ih fun x hx => h x (by simp [hx])]

theorem pyPop_no_key {α : Type} (m : List (String × α)) (k : String) :
    ∀ e ∈ pyPop m k, e.1 ≠ k := by
  intro e he
  have := List.of_mem_filter he
  simpa using this

theorem keyEntries_no_key {α : Type} :
    ∀ (m : List (String × α)) (i : String), (∀ e ∈ m, e.1 ≠ i) → keyEntries m i = []
  | [], _, _ => rfl
  | e :: rest, i, h => by
    have h1 := h e (by simp)
    have h2 := keyEntries_no_key rest i fun x hx => h x (by simp [hx])
    simp only [keyEntries] at h2 ⊢
    simp [h1, h2]

theorem keyEntries_pyInsert_fresh {α : Type} (m : List (String × α)) (i : String)
    (v : α) (h : ∀ e ∈ m, e.1 ≠ i) : keyEntries (pyInsert m i v) i = [(i, v)] := by
  rw [pyInsert_fresh m i v h, keyEntries_append, keyEntries_no_key m i h]
  simp [keyEntries]

/-- Entries keyed by the key function of their value. -/
def keyedBy {α : Type} (key : α → String) (m : List (String × α)) : Prop :=
  ∀ e ∈ m, key e.2 = e.1

theorem keyedBy_pyInsert {α : Type} (key : α → String) (m : List (String × α))
    (k : String) (v : α) (h : keyedBy key m) (hv : key v = k) :
    keyedBy key (pyInsert m k v) := by
  induction m with
  | nil => intro e he; simp [pyInsert] at he; simp [he, hv]
  | cons e rest ih =>
    obtain ⟨ek, ev⟩ := e
    by_cases hek : ek = k
    · intro x hx
      simp [pyInsert, hek] at hx
      rcases hx with hx | hx
      · simp [hx, hv]
      · exact h x (by simp [hx])
    · intro x hx
      simp [pyInsert, hek] at hx
      rcases hx with hx | hx
      · exact h x (by simp [hx])
      · exact ih (fun y hy => h y (by simp [hy])) x hx

theorem keyedBy_pyPop {α : Type} (key : α → String) (m : List (String × α))
    (k : String) (h : keyedBy key m) : keyedBy key (pyPop m k) :=
  fun e he => h e (List.mem_of_mem_filter he)

theorem keyedBy_pyUpdate {α : Type} (key : α → String) (m l : List (String × α))
    (hm : keyedBy key m) (hl : ∀ e ∈ l, key e.2 = e.1) :
    keyedBy key (pyUpdate m l) := by
  induction l generalizing m with
  | nil => exact hm
  | cons e rest ih =>
    have : pyUpdate m (e :: rest) = pyUpdate (pyInsert m e.1 e.2) rest := rfl
    rw [this]
    exact ih (pyInsert m e.1 e.2)
      (keyedBy_pyInsert key m e.1 e.2 hm (hl e (by simp)))
      (fun y hy => hl y (by simp [hy]))

theorem keyedBy_pyDictOf {α : Type} (key : α → String) (l : List (String × α))
    (hl : ∀ e ∈ l, key e.2 = e.1) : keyedBy key (pyDictOf l) :=
  keyedBy_pyUpdate key [] l (fun e he => absurd he (List.not_mem_nil e)) hl

/-- For a keyed association list, filtering the values on their key equals
projecting the entries of that key. -/
theorem map_snd_filter_key {α : Type} (key : α → String) :
    ∀ (m : List (String × α)) (i : String), keyedBy key m →
      (m.map Prod.snd).filter (fun c => key c == i) = (keyEntries m i).map Prod.snd
  | [], _, _ => rfl
  | e :: rest, i, h => by
    have hkey : key e.2 = e.1 := h e (by simp)
    have ihrest := map_snd_filter_key key rest i fun y hy => h y (by simp [hy])
    by_cases hi : e.1 = i
    · simp [keyEntries, List.filter_cons, hkey, hi, ihrest]
    · simp [keyEntries, List.filter_cons, hkey, hi, ihrest]

/-- The dict slot of id i after processing the stored checks is decided by
the last stored check with that id, independently of the initial
(file-loaded) entries of that id being present or not is irrelevant once a
stored check with that id exists. -/
theorem filter_checks_fold_keyEntries (flt : Option (ReportCheck → Bool))
    (stored : List ReportCheck) (acc : List (String × ReportCheck)) (i : String) :
    keyEntries (stored.foldl (fun acc c =>
        let acc1 := pyPop acc c.id
        if fltSat flt c then pyInsert acc1 c.id c else acc1) acc) i
      = (match lastWithId stored i with
         | some c => if fltSat flt c then [(i, c)] else []
         | none => keyEntries acc i) := by
  induction stored generalizing acc with
  | nil => rfl
  | cons c rest ih =>
    rw [List.foldl_cons, ih]
    cases hrest : lastWithId rest i with
    | some c2 => simp [lastWithId, hrest]
    | none =>
      by_cases hc : c.id = i
      · subst hc
        by_cases hsat : fltSat flt c = true
        · simpa [lastWithId, hrest, hsat] using
            keyEntries_pyInsert_fresh _ _ c (pyPop_no_key acc c.id)
        · simpa [lastWithId, hrest, hsat] using keyEntries_pyPop_self acc c.id
      · by_cases hsat : fltSat flt c = true
        · simpa [lastWithId, hrest, hc, hsat,
            keyEntries_pyInsert_ne _ _ _ _ hc] using keyEntries_pyPop_ne acc _ _ hc
        · simpa [lastWithId, hrest, hc, hsat] using keyEntries_pyPop_ne acc _ _ hc

/-! ## C10: stored checks shadow predefined checks in filter_checks -/

/-- C10: when some stored check carries id i, the result of filter_checks
restricted to id i is exactly the last stored check with that id when it
passes the filter, and empty otherwise. In particular a predefined
(file-loaded) check whose id also exists in the check store is never
returned, and when the shadowing stored check fails the filter neither
version appears. -/
theorem c10_filter_checks_store_shadows (file stored : List ReportCheck)
    (flt : Option (ReportCheck → Bool)) (i : String) (c_last : ReportCheck)
    (hlast : lastWithId stored i = some c_last) :
    (filter_checks file stored flt).filter (fun c => c.id == i)
      = if fltSat flt c_last then [c_last] else [] := by
  unfold filter_checks
  have hinit : keyedBy ReportCheck.id
      (pyDictOf ((file.filter (fltSat flt)).map fun c => (c.id, c))) :=
    keyedBy_pyDictOf _ _ (by intro e he; simp at he; obtain ⟨c, hc⟩ := he; simp [← hc.2])
  have hfold : ∀ (st : List ReportCheck) (start : List (String × ReportCheck)),
      keyedBy ReportCheck.id start →
      keyedBy ReportCheck.id (st.foldl (fun acc c =>
        let acc1 := pyPop acc c.id
        if fltSat flt c then pyInsert acc1 c.id c else acc1) start) := by
    intro st
    induction st with
    | nil => exact fun start h => h
    | cons c rest ih =>
      intro start hstart
      rw [List.foldl_cons]
      apply ih
      by_cases hsat : fltSat flt c = true
      · simpa [hsat] using
          keyedBy_pyInsert _ _ _ _ (keyedBy_pyPop _ start c.id hstart) rfl
      · simpa [hsat] using keyedBy_pyPop _ start c.id hstart
  have hfinal := hfold stored _ hinit
  rw [map_snd_filter_key ReportCheck.id _ i hfinal,
    filter_checks_fold_keyEntries flt stored _ i, hlast]
  by_cases hsat : fltSat flt c_last <;> simp [hsat]

/-- Witness for C10: a stored check that shares its id with a predefined one
but fails the filter makes both versions disappear from the result. -/
theorem c10_filter_checks_store_shadows_witness :
    (filter_checks
        [{ id := "c1", title := "predefined", severity := .high,
           detect := { manual := true }, remediation := ⟨"t", "u"⟩ }]
        [{ id := "c1", title := "stored", severity := .low,
           detect := { manual := true }, remediation := ⟨"t", "u"⟩ }]
        (some fun c => c.severity == ReportSeverity.high)).filter
          (fun c => c.id == "c1")
      = [] := by
  have := c10_filter_checks_store_shadows
    [{ id := "c1", title := "predefined", severity := .high,
       detect := { manual := true }, remediation := ⟨"t", "u"⟩ }]
    [{ id := "c1", title := "stored", severity := .low,
       detect := { manual := true }, remediation := ⟨"t", "u"⟩ }]
    (some fun c => c.severity == ReportSeverity.high) "c1"
    { id := "c1", title := "stored", severity := .low,
      detect := { manual := true }, remediation := ⟨"t", "u"⟩ }
    (by rfl)
  simpa [fltSat] using this

/-! ## C6: section round-trip. The pointwise fact: making a variable name
relative and absolute again is the identity unless the name starts with a
slash or with section./ -/

theorem abs_rel_roundtrip (s : String) (hs1 : s ≠ "") (hs2 : s ≠ PathRoot)
    (n : String) (h1 : pyStartsWith n PathRoot = false)
    (h2 : pyStartsWith n (s ++ "./") = false) :
    variable_to_absolute (some s) (variable_to_relative s n) = n := by
  unfold variable_to_relative
  by_cases hpre : pyStartsWith n (s ++ ".") = true
  · simp only [h1, Bool.false_eq_true, if_false, hpre, if_true]
    obtain ⟨rest, hrest⟩ : ∃ rest, n.data = s.data ++ '.' :: rest := by
      have hp := List.isPrefixOf_iff_prefix.mp hpre
      rw [String.data_append] at hp
      obtain ⟨t, ht⟩ := hp
      exact ⟨t, by rw [← ht]; simp⟩
    have hreldata : (pyDrop n (pyLen s + 1)).data = rest := by
      have : s.data ++ '.' :: rest = (s.data ++ ['.']) ++ rest := by simp
      simp only [pyDrop, pyLen, hrest, this]
      have hlen : (s.data ++ ['.']).length = s.data.length + 1 := by simp
      rw [← hlen, List.drop_left]
    have hrelslash : pyStartsWith (pyDrop n (pyLen s + 1)) PathRoot = false := by
      by_contra hc
      have hc' : pyStartsWith (pyDrop n (pyLen s + 1)) PathRoot = true := by
        revert hc
        cases pyStartsWith (pyDrop n (pyLen s + 1)) PathRoot <;> simp
      have hp := List.isPrefixOf_iff_prefix.mp hc'
      rw [hreldata] at hp
      obtain ⟨t, ht⟩ := hp
      have hn : n.data = (s ++ "./").data ++ t := by
        rw [String.data_append, hrest, ← ht]
        simp [PathRoot]
      have : pyStartsWith n (s ++ "./") = true := by
        apply List.isPrefixOf_iff_prefix.mpr
        exact ⟨t, hn.symm⟩
      rw [this] at h2
      exact Bool.true_eq_false.mp h2
    unfold variable_to_absolute
    simp only [hrelslash, Bool.false_eq_true, if_false]
    have hcond : s ≠ "" ∧ s ≠ PathRoot := ⟨hs1, hs2⟩
    simp only [hcond, and_self, if_true, ne_eq, hs1, not_false_iff, hs2]
    apply String.ext
    rw [String.data_append, String.data_append, hreldata, hrest]
    simp
  · simp only [h1, Bool.false_eq_true, if_false, hpre]
    unfold variable_to_absolute
    have hslash : pyStartsWith (PathRoot ++ n) PathRoot = true := by
      apply List.isPrefixOf_iff_prefix.mpr
      exact ⟨n.data, (String.data_append PathRoot n).symm⟩
    simp only [hslash, if_true]
    apply String.ext
    simp [pyDrop, String.data_append, PathRoot]

theorem sorting_cv_roundtrip (f g : String → String) (p : String → Bool)
    (hfg : ∀ n, p n = true → g (f n) = n) (l : List Sorting)
    (h : l.all (fun srt => p srt.name) = true) :
    (l.map (Sorting.change_variable f)).map (Sorting.change_variable g) = l := by
  induction l with
  | nil => rfl
  | cons srt rest ih =>
    simp only [List.all_cons, Bool.and_eq_true] at h
    simp [Sorting.change_variable, hfg srt.name h.1, ih h.2]

theorem aggfn_cv_roundtrip (f g : String → String) (p : String → Bool)
    (hfg : ∀ n, p n = true → g (f n) = n) (a : AggregateFunction)
    (h : AggregateFunction.varsOk p a = true) :
    AggregateFunction.change_variable g (AggregateFunction.change_variable f a) = a := by
  obtain ⟨fn, nm, ops, asn⟩ := a
  cases nm with
  | str s =>
    simp only [AggregateFunction.varsOk] at h
    simp [AggregateFunction.change_variable, hfg s h]
  | int i => rfl

theorem aggvar_cv_roundtrip (f g : String → String) (p : String → Bool)
    (hfg : ∀ n, p n = true → g (f n) = n) (v : AggregateVariable)
    (h : AggregateVariable.varsOk p v = true) :
    AggregateVariable.change_variable g (AggregateVariable.change_variable f v) = v := by
  obtain ⟨nm, asn⟩ := v
  cases nm with
  | plain n =>
    simp only [AggregateVariable.varsOk] at h
    simp [AggregateVariable.change_variable, AggVarName.change_variable,
      AggregateVariableName.change_variable, hfg n.name h]
  | combined c =>
    simp only [AggregateVariable.varsOk] at h
    simp only [AggregateVariable.change_variable, AggVarName.change_variable,
      AggregateVariableCombined.change_variable]
    obtain ⟨cparts⟩ := c
    simp only [AggregateVariable.mk.injEq, AggVarName.combined.injEq,
      AggregateVariableCombined.mk.injEq, List.map_map, and_true]
    induction cparts with
    | nil => rfl
    | cons pt rest ih =>
      simp only [List.all_cons, Bool.and_eq_true] at h
      have hrest := ih h.2
      cases pt with
      | lit str => simpa [AVCPart.change_variable] using hrest
      | var vn =>
        simp only [List.map_cons] at hrest ⊢
        simp [AVCPart.change_variable, AggregateVariableName.change_variable,
          hfg vn.name h.1, hrest]

theorem aggvarlist_cv_roundtrip (f g : String → String) (p : String → Bool)
    (hfg : ∀ n, p n = true → g (f n) = n) :
    ∀ l : List AggregateVariable, l.all (AggregateVariable.varsOk p) = true →
      (l.map (AggregateVariable.change_variable f)).map
        (AggregateVariable.change_variable g) = l
  | [], _ => rfl
  | v :: rest, h => by
    simp only [List.all_cons, Bool.and_eq_true] at h
    simp [aggvar_cv_roundtrip f g p hfg v h.1,
      aggvarlist_cv_roundtrip f g p hfg rest h.2]

theorem aggfnlist_cv_roundtrip (f g : String → String) (p : String → Bool)
    (hfg : ∀ n, p n = true → g (f n) = n) :
    ∀ l : List AggregateFunction, l.all (AggregateFunction.varsOk p) = true →
      (l.map (AggregateFunction.change_variable f)).map
        (AggregateFunction.change_variable g) = l
  | [], _ => rfl
  | a :: rest, h => by
    simp only [List.all_cons, Bool.and_eq_true] at h
    simp [aggfn_cv_roundtrip f g p hfg a h.1,
      aggfnlist_cv_roundtrip f g p hfg rest h.2]

theorem aggopt_cv_roundtrip (f g : String → String) (p : String → Bool)
    (hfg : ∀ n, p n = true → g (f n) = n) :
    ∀ agg : Option Aggregate,
      (match agg with
       | none => true
       | some a => Aggregate.varsOk p a) = true →
      Option.map (Aggregate.change_variable g)
        (Option.map (Aggregate.change_variable f) agg) = agg
  | none, _ => rfl
  | some a, h => by
    simp only at h
    obtain ⟨gb, gf⟩ := a
    simp only [Aggregate.varsOk, Bool.and_eq_true] at h
    show some (Aggregate.change_variable g (Aggregate.change_variable f ⟨gb, gf⟩))
      = some ⟨gb, gf⟩
    simp [Aggregate.change_variable, aggvarlist_cv_roundtrip f g p hfg gb h.1,
      aggfnlist_cv_roundtrip f g p hfg gf h.2]

mutual
theorem term_cv_rt (f g : String → String) (p : String → Bool)
    (hfg : ∀ n, p n = true → g (f n) = n) :
    ∀ t : Term, Term.varsOk p t = true →
      Term.change_variable g (Term.change_variable f t) = t
  | .AllTerm, _ => rfl
  | .NotTerm t, h => by
    simp only [Term.varsOk] at h
    simp [Term.change_variable, term_cv_rt f g p hfg t h]
  | .Predicate n op v args, h => by
    simp only [Term.varsOk] at h
    simp [Term.change_variable, hfg n h]
  | .IsTerm ks, _ => rfl
  | .IdTerm i, _ => rfl
  | .FunctionTerm fn pp args, h => by
    simp only [Term.varsOk] at h
    simp [Term.change_variable, hfg pp h]
  | .CombinedTerm l op r, h => by
    simp only [Term.varsOk, Bool.and_eq_true] at h
    simp [Term.change_variable, term_cv_rt f g p hfg l h.1,
      term_cv_rt f g p hfg r h.2]
  | .MergeTerm pre merge post, h => by
    simp only [Term.varsOk, Bool.and_eq_true] at h
    simp [Term.change_variable, term_cv_rt f g p hfg pre h.1.1,
      mqs_cv_rt f g p hfg merge h.1.2, optterm_cv_rt f g p hfg post h.2]

theorem mqs_cv_rt (f g : String → String) (p : String → Bool)
    (hfg : ∀ n, p n = true → g (f n) = n) :
    ∀ l : List MergeQuery, varsOkMergeList p l = true →
      changeVarMergeList g (changeVarMergeList f l) = l
  | [], _ => rfl
  | mq :: rest, h => by
    simp only [varsOkMergeList, Bool.and_eq_true] at h
    simp [changeVarMergeList, mq_cv_rt f g p hfg mq h.1, mqs_cv_rt f g p hfg rest h.2]

theorem optterm_cv_rt (f g : String → String) (p : String → Bool)
    (hfg : ∀ n, p n = true → g (f n) = n) :
    ∀ o : Option Term, varsOkOptTerm p o = true →
      changeVarOptTerm g (changeVarOptTerm f o) = o
  | none, _ => rfl
  | some t, h => by
    simp only [varsOkOptTerm] at h
    simp [changeVarOptTerm, term_cv_rt f g p hfg t h]

theorem mq_cv_rt (f g : String → String) (p : String → Bool)
    (hfg : ∀ n, p n = true → g (f n) = n) :
    ∀ mq : MergeQuery, MergeQuery.varsOk p mq = true →
      MergeQuery.change_variable g (MergeQuery.change_variable f mq) = mq
  | .mk nm q fst, h => by
    simp only [MergeQuery.varsOk] at h
    simp [MergeQuery.change_variable, query_cv_rt f g p hfg q h]

theorem query_cv_rt (f g : String → String) (p : String → Bool)
    (hfg : ∀ n, p n = true → g (f n) = n) :
    ∀ q : Query, Query.varsOk p q = true →
      Query.change_variable g (Query.change_variable f q) = q
  | .mk parts pre agg, h => by
    simp only [Query.varsOk, Bool.and_eq_true] at h
    simp [Query.change_variable, parts_cv_rt f g p hfg parts h.1,
      aggopt_cv_roundtrip f g p hfg agg h.2]

theorem parts_cv_rt (f g : String → String) (p : String → Bool)
    (hfg : ∀ n, p n = true → g (f n) = n) :
    ∀ l : List Part, varsOkPartList p l = true →
      changeVarPartList g (changeVarPartList f l) = l
  | [], _ => rfl
  | pt :: rest, h => by
    simp only [varsOkPartList, Bool.and_eq_true] at h
    simp [changeVarPartList, part_cv_rt f g p hfg pt h.1, parts_cv_rt f g p hfg rest h.2]

theorem part_cv_rt (f g : String → String) (p : String → Bool)
    (hfg : ∀ n, p n = true → g (f n) = n) :
    ∀ pt : Part, Part.varsOk p pt = true →
      Part.change_variable g (Part.change_variable f pt) = pt
  | .mk t tg wc srt lim nav, h => by
    simp only [Part.varsOk, Bool.and_eq_true] at h
    simp [Part.change_variable, term_cv_rt f g p hfg t h.1.1,
      optwc_cv_rt f g p hfg wc h.1.2, sorting_cv_roundtrip f g p hfg srt h.2]

theorem optwc_cv_rt (f g : String → String) (p : String → Bool)
    (hfg : ∀ n, p n = true → g (f n) = n) :
    ∀ o : Option WithClause, varsOkOptWithClause p o = true →
      changeVarOptWithClause g (changeVarOptWithClause f o) = o
  | none, _ => rfl
  | some wc, h => by
    simp only [varsOkOptWithClause] at h
    simp [changeVarOptWithClause, wc_cv_rt f g p hfg wc h]

theorem wc_cv_rt (f g : String → String) (p : String → Bool)
    (hfg : ∀ n, p n = true → g (f n) = n) :
    ∀ wc : WithClause, WithClause.varsOk p wc = true →
      WithClause.change_variable g (WithClause.change_variable f wc) = wc
  | .mk wf nav t iwc, h => by
    simp only [WithClause.varsOk, Bool.and_eq_true] at h
    simp [WithClause.change_variable, optterm_cv_rt f g p hfg t h.1,
      optwc_cv_rt f g p hfg iwc h.2]
end

/-- C6 counterexample: the claim states the round-trip is the identity on
every query. On a query whose predicate name starts with a slash the
round-trip strips the slash: relative_to_section leaves /foo unchanged and
on_section then resolves it to foo. -/
theorem c6_roundtrip_fails_on_leading_slash :
    (((Query.by (.Predicate "/foo" "==" (.num 1) [])).relative_to_section
        "reported").on_section (some "reported")
      = Query.by (.Predicate "foo" "==" (.num 1) [])) ∧
    (((Query.by (.Predicate "/foo" "==" (.num 1) [])).relative_to_section
        "reported").on_section (some "reported")
      ≠ Query.by (.Predicate "/foo" "==" (.num 1) [])) := by
  constructor
  · rfl
  · intro h
    have hname := congrArg (fun q =>
      match q.current_part.term with
      | .Predicate n _ _ _ => n
      | _ => "") h
    exact absurd hname (by decide)

/-- C6 amended: for every non-root, non-empty section s and every query none
of whose variable names starts with a slash or with s followed by ./ ,
relative_to_section(s) followed by on_section(s) is the identity. -/
theorem c6_section_roundtrip (s : String) (q : Query) (hs1 : s ≠ "")
    (hs2 : s ≠ PathRoot)
    (hvars : Query.varsOk
      (fun n => !(pyStartsWith n PathRoot) && !(pyStartsWith n (s ++ "./"))) q
      = true) :
    (q.relative_to_section s).on_section (some s) = q := by
  unfold Query.relative_to_section Query.on_section
  simp only [ne_eq, hs2, not_false_iff, if_true, if_neg hs2]
  exact query_cv_rt (variable_to_relative s) (variable_to_absolute (some s))
    (fun n => !(pyStartsWith n PathRoot) && !(pyStartsWith n (s ++ "./")))
    (fun n hn => by
      simp only [Bool.and_eq_true, Bool.not_eq_true'] at hn
      exact abs_rel_roundtrip s hs1 hs2 n hn.1 hn.2)
    q hvars

/-- Witness for C6 on a one-predicate query over the reported section. -/
theorem c6_section_roundtrip_witness :
    ((Query.by (.Predicate "reported.name" "==" (.str "x")
        [])).relative_to_section "reported").on_section (some "reported")
      = Query.by (.Predicate "reported.name" "==" (.str "x") []) :=
  c6_section_roundtrip "reported"
    (Query.by (.Predicate "reported.name" "==" (.str "x") []))
    (by decide) (by decide) (by decide)

/-! ## C1: per-check failures in perform_benchmarks -/

/-- C1 counterexample: the claim states that a parse error of a detection
string or a CLI command failure is logged and demoted to an empty result
with the batch continuing. With a parser (resp. CLI) that fails, the whole
perform_checks batch is an error, not a result map with empty entries. -/
theorem c1_parse_and_cli_errors_abort_the_batch :
    perform_checks
        { parse := fun _ => .error "parse failed",
          search := fun _ => ([], none),
          cli := fun _ => .ok [] } none
        [{ id := "c1", detect := { resoto := some "bad" }, remediation := ⟨"t", "u"⟩ }]
      = .error "parse failed" ∧
    perform_checks
        { parse := fun _ => .ok (Query.by .AllTerm),
          search := fun _ => ([], none),
          cli := fun _ => .error "cmd failed" } none
        [{ id := "c2", detect := { resoto_cmd := some "discovery" },
           remediation := ⟨"t", "u"⟩ }]
      = .error "cmd failed" :=
  ⟨rfl, rfl⟩

/-- C1 amended: cursor failures (on opening or mid-stream) never escape one
check evaluation: perform_search succeeds with the delivered rows whatever
the error component of the cursor outcome is; the account composition always
succeeds on a well-formed parsed query; and when every check's detection
parses (resp. the CLI call succeeds), the whole batch succeeds, producing
one entry per check holding its grouped delivered rows. Parse and CLI
failures, by the counterexample, propagate instead. -/
theorem c1_cursor_errors_are_demoted (env : GraphEnv)
    (accounts : Option (List String)) :
    (∀ s q q', env.parse s = .ok q → compose_account_filter accounts q = .ok q' →
      perform_search env accounts s = .ok (env.search q').1) ∧
    (∀ (q : Query) (accs : List String), q.parts ≠ [] →
      ∃ q2, compose_account_filter (some accs) q = .ok q2) ∧
    (∀ checks : List ReportCheck,
      (∀ c ∈ checks, ∃ rows, list_failing_resources_rows env accounts c = .ok rows) →
      ∃ out, perform_checks env accounts checks = .ok out ∧
        out.map Prod.fst = checks.map ReportCheck.id ∧
        ∀ pr ∈ out, ∃ c ∈ checks, ∃ rows,
          list_failing_resources_rows env accounts c = .ok rows ∧
          pr = (c.id, group_by_account rows)) := by
  refine ⟨?_, ?_, ?_⟩
  · intro s q q' hparse hcomp
    simp [perform_search, hparse, hcomp, Bind.bind, Except.bind]
  · intro q accs hne
    by_cases haccs : accs = []
    · exact ⟨q, by simp [compose_account_filter, haccs]⟩
    · obtain ⟨parts, pre, agg⟩ := q
      simp only [Query.parts] at hne
      obtain ⟨last, hlast⟩ :=
        Option.isSome_iff_exists.mp (List.getLast?_isSome.mpr hne)
      simp only [compose_account_filter, haccs, ne_eq, not_false_iff, if_true]
      simp [Query.combine, Query.by, Query.parts, Query.aggregate, Query.preamble,
        Part.navigation, Part.with_clause, Part.tag, Part.term, Part.sort,
        Part.limit, hlast, optStrTruthy]
  · intro checks h
    induction checks with
    | nil => exact ⟨[], rfl, rfl, by simp⟩
    | cons c rest ih =>
      obtain ⟨rows, hrows⟩ := h c (by simp)
      obtain ⟨out', hout', hids', hmem'⟩ := ih fun x hx => h x (by simp [hx])
      refine ⟨(c.id, group_by_account rows) :: out', ?_, ?_, ?_⟩
      · simp only [perform_checks] at hout' ⊢
        simp only [mapMExcept, perform_check, hrows, Except.map,
          Bind.bind, Except.bind] at hout' ⊢
        simp [hout']
      · simp [hids']
      · intro pr hpr
        rcases List.mem_cons.mp hpr with hpr1 | hpr1
        · exact ⟨c, by simp, rows, hrows, by simp [hpr1]⟩
        · obtain ⟨c2, hc2, rows2, hrows2, hpr2⟩ := hmem' pr hpr1
          exact ⟨c2, by simp [hc2], rows2, hrows2, hpr2⟩

/-- Witness for C1 at a concrete environment whose cursor fails on opening:
the search result is the (empty) delivered row list, account composition
succeeds, and a batch over one manual check succeeds. -/
theorem c1_cursor_errors_are_demoted_witness :
    (perform_search cursorFailEnv none "is(volume)" = .ok []) ∧
    (∃ q2, compose_account_filter (some ["acc"]) (Query.by .AllTerm) = .ok q2) ∧
    (∃ out, perform_checks cursorFailEnv none [manualOnlyCheck] = .ok out ∧
      out.map Prod.fst = [manualOnlyCheck].map ReportCheck.id ∧
      ∀ pr ∈ out, ∃ c ∈ [manualOnlyCheck], ∃ rows,
        list_failing_resources_rows cursorFailEnv none c = .ok rows ∧
          pr = (c.id, group_by_account rows)) := by
  have h := c1_cursor_errors_are_demoted cursorFailEnv none
  exact ⟨h.1 "is(volume)" (Query.by .AllTerm) (Query.by .AllTerm) rfl rfl,
    h.2.1 (Query.by .AllTerm) ["acc"] (by simp [Query.by, Query.parts]),
    h.2.2 [manualOnlyCheck]
      (by intro c hc; exact ⟨[], by simp at hc; simp [hc,
        list_failing_resources_rows, truthyGet, manualOnlyCheck]⟩)⟩

/-! ## C9: check validation -/

/-- C9 counterexample: the claim states that validation flags empty
remediation fields regardless of the detection kind. A manual check with
empty remediation text and url, empty title and empty risk validates to the
empty error list: the manual branch returns before any field check runs. -/
theorem c9_manual_check_validation_short_circuits :
    validate_check (fun _ => .ok ()) (fun _ => .ok ())
        { id := "c1", detect := { manual := true }, remediation := ⟨"", ""⟩ } = [] ∧
      ({ id := "c1", detect := { manual := true }, remediation := ⟨"", ""⟩ } :
          ReportCheck).remediation.text = "" ∧
      ({ id := "c1", detect := { manual := true }, remediation := ⟨"", ""⟩ } :
          ReportCheck).remediation.url = "" :=
  ⟨rfl, rfl, rfl⟩

/-- C9 amended: for a check whose detection is a resoto search or a
resoto_cmd command and whose detection parses (respectively evaluates)
without error, validation returns, together in one list, an error entry for
an empty remediation.text, an empty remediation.url, an empty result_kinds
list, and each empty field among id, title and risk (severity is an enum
member, always truthy in Python, and can never be flagged); a manual check
returns no errors. -/
theorem c9_check_validation_collects_all_violations
    (parse evalcmd : String → Except String Unit) (check : ReportCheck) (s : String)
    (hdet : (truthyGet check.detect.resoto = some s ∧ parse s = .ok ()) ∨
      (truthyGet check.detect.resoto = none ∧
        truthyGet check.detect.resoto_cmd = some s ∧ evalcmd s = .ok ())) :
    (check.remediation.text = "" →
      ("Check " ++ check.id ++ " does not define any remediation text")
        ∈ validate_check parse evalcmd check) ∧
    (check.remediation.url = "" →
      ("Check " ++ check.id ++ " does not define any remediation url")
        ∈ validate_check parse evalcmd check) ∧
    (check.result_kinds = [] →
      ("Check " ++ check.id ++ " does not define any result kind")
        ∈ validate_check parse evalcmd check) ∧
    (check.id = "" →
      ("Check " ++ check.id ++ " does not define prop id")
        ∈ validate_check parse evalcmd check) ∧
    (check.title = "" →
      ("Check " ++ check.id ++ " does not define prop title")
        ∈ validate_check parse evalcmd check) ∧
    (check.risk = "" →
      ("Check " ++ check.id ++ " does not define prop risk")
        ∈ validate_check parse evalcmd check) := by
  have hbody : validate_check parse evalcmd check
      = (if check.result_kinds = [] then
          ["Check " ++ check.id ++ " does not define any result kind"] else [])
        ++ ((check.result_kinds.filter fun rk => !(pyIn rk s)).map
            fun rk => "Check " ++ check.id ++ " does not detect result kind " ++ rk)
        ++ (if check.remediation.text = "" then
            ["Check " ++ check.id ++ " does not define any remediation text"] else [])
        ++ (if check.remediation.url = "" then
            ["Check " ++ check.id ++ " does not define any remediation url"] else [])
        ++ (if check.id = "" then
            ["Check " ++ check.id ++ " does not define prop id"] else [])
        ++ (if check.title = "" then
            ["Check " ++ check.id ++ " does not define prop title"] else [])
        ++ (if check.risk = "" then
            ["Check " ++ check.id ++ " does not define prop risk"] else []) := by
    rcases hdet with ⟨hres, hparse⟩ | ⟨hres, hcmd, heval⟩
    · simp [validate_check, hres, hparse]
    · simp [validate_check, hres, hcmd, heval]
  refine ⟨?_, ?_, ?_, ?_, ?_, ?_⟩ <;> intro h <;> rw [hbody] <;> simp [h]

/-- Witness for C9: a resoto check with parseable detection and every
required field empty produces all the error entries at once. -/
theorem c9_check_validation_collects_all_violations_witness :
    (("Check " ++ "" ++ " does not define any remediation text")
        ∈ validate_check (fun _ => .ok ()) (fun _ => .ok ())
          { id := "", detect := { resoto := some "is(foo)" }, remediation := ⟨"", ""⟩ }) ∧
      (("Check " ++ "" ++ " does not define any remediation url")
        ∈ validate_check (fun _ => .ok ()) (fun _ => .ok ())
          { id := "", detect := { resoto := some "is(foo)" }, remediation := ⟨"", ""⟩ }) ∧
      (("Check " ++ "" ++ " does not define any result kind")
        ∈ validate_check (fun _ => .ok ()) (fun _ => .ok ())
          { id := "", detect := { resoto := some "is(foo)" }, remediation := ⟨"", ""⟩ }) ∧
      (("Check " ++ "" ++ " does not define prop id")
        ∈ validate_check (fun _ => .ok ()) (fun _ => .ok ())
          { id := "", detect := { resoto := some "is(foo)" }, remediation := ⟨"", ""⟩ }) ∧
      (("Check " ++ "" ++ " does not define prop title")
        ∈ validate_check (fun _ => .ok ()) (fun _ => .ok ())
          { id := "", detect := { resoto := some "is(foo)" }, remediation := ⟨"", ""⟩ }) ∧
      (("Check " ++ "" ++ " does not define prop risk")
        ∈ validate_check (fun _ => .ok ()) (fun _ => .ok ())
          { id := "", detect := { resoto := some "is(foo)" }, remediation := ⟨"", ""⟩ }) := by
  have h := c9_check_validation_collects_all_violations (fun _ => .ok ())
    (fun _ => .ok ())
    { id := "", detect := { resoto := some "is(foo)" }, remediation := ⟨"", ""⟩ }
    "is(foo)" (Or.inl ⟨rfl, rfl⟩)
  exact ⟨h.1 rfl, h.2.1 rfl, h.2.2.1 rfl, h.2.2.2.1 rfl, h.2.2.2.2.1 rfl,
    h.2.2.2.2.2 rfl⟩

/-! ## C3: the severity clause of load_benchmarks -/

/-- C3: the claim states that with threshold S the severity-in clause of the
query built by load_benchmarks contains exactly the severities s with
prio(S) <= prio(s). The code instead tests includes_severity(severity) - a
condition that does not mention the iteration variable and is true for the
threshold itself - so for threshold high the clause lists all five
severities, including low whose priority is strictly below high. -/
theorem c3_load_benchmarks_severity_clause_is_vacuous :
    load_benchmarks_severity_values none .high false
        = ["info", "low", "medium", "high", "critical"] ∧
      load_benchmarks_severity_clause none .high false
        = .Predicate "severity" "in"
            (Json.strArr ["info", "low", "medium", "high", "critical"]) [] ∧
      "low" ∈ load_benchmarks_severity_values none .high false ∧
      ReportSeverity.low.prio < ReportSeverity.high.prio := by
  refine ⟨rfl, rfl, ?_, ?_⟩ <;> decide

/-! ## C5: composing traverse_out with itself -/

/-- C5: for every query whose current part carries no navigation, applying
traverse_out(a, b) twice with the same edge type yields as many parts as one
application and a single navigation with start = min(Max, 2a) and
until = min(Max, 2b). -/
theorem c5_traverse_out_composes (q : Query) (a b : Int) (et : String)
    (hne : q.parts ≠ []) (hnav : q.current_part.navigation = none) :
    ((q.traverse_out a b et).traverse_out a b et).parts.length
        = (q.traverse_out a b et).parts.length ∧
      ((q.traverse_out a b et).traverse_out a b et).current_part.navigation
        = some ⟨min Navigation.Max (2 * a), min Navigation.Max (2 * b), et,
            Direction.outbound⟩ := by
  obtain ⟨parts, pre, agg⟩ := q
  match parts, hne with
  | .mk t tg wc srt lim nav :: rest, _ =>
    simp only [Query.current_part, Query.parts, Part.navigation] at hnav
    subst hnav
    simp [Query.traverse_out, Query.traverse, Query.parts, Query.current_part,
      Part.navigation, Part.with_navigation, Query.preamble, Query.aggregate,
      two_mul]

/-- Witness for C5 at a concrete query and bounds. -/
theorem c5_traverse_out_composes_witness :
    (((Query.by (.IsTerm ["aws_instance"])).traverse_out 2 3
          EdgeType.default).traverse_out 2 3 EdgeType.default).parts.length
        = ((Query.by (.IsTerm ["aws_instance"])).traverse_out 2 3
            EdgeType.default).parts.length ∧
      (((Query.by (.IsTerm ["aws_instance"])).traverse_out 2 3
          EdgeType.default).traverse_out 2 3 EdgeType.default).current_part.navigation
        = some ⟨min Navigation.Max (2 * 2), min Navigation.Max (2 * 3),
            EdgeType.default, Direction.outbound⟩ :=
  c5_traverse_out_composes (Query.by (.IsTerm ["aws_instance"])) 2 3
    EdgeType.default (by simp [Query.by, Query.parts]) rfl

/-! ## C4: the frame effect of Query.filter -/

/-- C4 counterexample: the claim states that filter on a navigation-free
current part changes only that part's term, keeping its tag, sort list and
limit. On a part carrying tag "t", a sort and limit 5, the filtered query's
current part has lost all three. -/
theorem c4_filter_drops_part_attributes :
    ((Query.mk [.mk (.IsTerm ["a"]) (some "t") none [⟨"s", "asc"⟩] (some 5) none]
          [] none).filter (.Predicate "p" "==" (.num 1) [])).current_part.tag = none ∧
      ((Query.mk [.mk (.IsTerm ["a"]) (some "t") none [⟨"s", "asc"⟩] (some 5) none]
          [] none).filter (.Predicate "p" "==" (.num 1) [])).current_part.limit = none ∧
      ((Query.mk [.mk (.IsTerm ["a"]) (some "t") none [⟨"s", "asc"⟩] (some 5) none]
          [] none).filter (.Predicate "p" "==" (.num 1) [])).current_part.sort = [] ∧
      (Query.mk [.mk (.IsTerm ["a"]) (some "t") none [⟨"s", "asc"⟩] (some 5) none]
          [] none).current_part.tag = some "t" ∧
      (Query.mk [.mk (.IsTerm ["a"]) (some "t") none [⟨"s", "asc"⟩] (some 5) none]
          [] none).current_part.limit = some 5 ∧
      (Query.mk [.mk (.IsTerm ["a"]) (some "t") none [⟨"s", "asc"⟩] (some 5) none]
          [] none).current_part.sort = [⟨"s", "asc"⟩] := by
  refine ⟨rfl, rfl, rfl, rfl, rfl, rfl⟩

/-- C4 amended: for a query whose current (index-0) part has no navigation,
filter(term) replaces that part by a fresh part whose term is the
conjunction of the old term and the new term and whose tag, with_clause,
sort list and limit are reset to their defaults; all other parts, the
preamble and the aggregate stay unchanged. -/
theorem c4_filter_replaces_current_part (q : Query) (t : Term) (first : Part)
    (rest : List Part) (hparts : q.parts = first :: rest)
    (hnav : first.navigation = none) :
    q.filter t
      = .mk (.mk (.CombinedTerm first.term "and" t) none none [] none none :: rest)
          q.preamble q.aggregate := by
  obtain ⟨parts, pre, agg⟩ := q
  simp only [Query.parts] at hparts
  subst hparts
  simp [Query.filter, Query.mk_term, Query.parts, Query.preamble, Query.aggregate, hnav]

/-- Witness for C4 at a concrete query and filter term. -/
theorem c4_filter_replaces_current_part_witness :
    (Query.mk [.mk (.IsTerm ["a"]) none none [] none none] [] none).filter
          (.Predicate "p" "==" (.num 1) [])
      = .mk [.mk (.CombinedTerm (.IsTerm ["a"]) "and" (.Predicate "p" "==" (.num 1) []))
            none none [] none none] [] none :=
  c4_filter_replaces_current_part
    (Query.mk [.mk (.IsTerm ["a"]) none none [] none none] [] none)
    (.Predicate "p" "==" (.num 1) []) (.mk (.IsTerm ["a"]) none none [] none none)
    [] rfl rfl

/-! ## C2: the merge query synthesised by the ancestor rewriter -/

/-- C2: evaluating the rewriter on the part with term
(ancestors.account.reported.name == "prod" and k == 1) and an empty resolved
set. The result matches the claim except in the navigation bounds of the
synthesised sub-query: the code builds Navigation(1, Max) - rendered
is(account) <-[1:]- all - while the claim and the function's own docstring
state depth 0..Max. -/
theorem c2_rewrite_ancestors_navigation_starts_at_one :
    Part.rewrite_for_ancestors_descendants []
        (.mk (.CombinedTerm
            (.Predicate "ancestors.account.reported.name" "==" (.str "prod") [])
            "and" (.Predicate "k" "==" (.num 1) [])) none none [] none none)
      = .ok (.mk (.MergeTerm (.Predicate "k" "==" (.num 1) [])
          [.mk "ancestors.account"
            (.mk [.mk (.IsTerm ["account"]) none none [] none none,
                  .mk .AllTerm none none [] none
                    (some ⟨1, Navigation.Max, EdgeType.default, Direction.inbound⟩)]
              [] none) true]
          (some (.Predicate "ancestors.account.reported.name" "==" (.str "prod") [])))
          none none [] none none) ∧
    (merge_query_for "ancestors" "account").query.parts.map
        (fun p => p.navigation.map Navigation.start) = [none, some 1] := by
  constructor
  · simp [Part.rewrite_for_ancestors_descendants, Part.term, Part.with_term,
      has_ancestor_descendant, is_ancestor_descendant, pyStartsWith, walk_term,
      Term.and_term, ancestor_descendant_predicates, mapMExcept, name_predicate,
      pySplitDot2, splitOnceChar, dedupFirst, Term.merges, pyDictOf, pyUpdate,
      pyInsert, merge_query_for, bind, Except.bind]
  · decide

/-! ## C8: predefined benchmarks are protected -/

/-- Helper: the two denied-operation messages differ for every benchmark id. -/
theorem denied_messages_distinct (bid : String) :
    ("Deleting a predefined benchmark is not allowed: " ++ bid)
      ≠ ("Changing a predefined benchmark is not allowed: " ++ bid) := by
  intro h
  have hd := congrArg String.data h
  rw [String.data_append, String.data_append] at hd
  exact absurd (List.append_cancel_right hd) (by decide)

/-- C8: a predefined benchmark id makes delete_benchmark and
update_benchmark fail with distinct denied-operation errors before any store
interaction; a non-predefined id makes delete_benchmark delegate the
deletion to the store. -/
theorem c8_predefined_benchmarks_protected (predef invalid : List String)
    (bid : String) :
    (bid ∈ predef →
      delete_benchmark predef bid
          = .error ("Deleting a predefined benchmark is not allowed: " ++ bid) ∧
        update_benchmark predef invalid bid
          = .error ("Changing a predefined benchmark is not allowed: " ++ bid) ∧
        ("Deleting a predefined benchmark is not allowed: " ++ bid)
          ≠ ("Changing a predefined benchmark is not allowed: " ++ bid)) ∧
    (bid ∉ predef → delete_benchmark predef bid = .ok (.deleteB bid)) := by
  constructor
  · intro hmem
    refine ⟨?_, ?_, denied_messages_distinct bid⟩
    · simp [delete_benchmark, hmem]
    · simp [update_benchmark, hmem]
  · intro hmem
    simp [delete_benchmark, hmem]

/-- Witness for C8 with a one-entry predefined table. -/
theorem c8_predefined_benchmarks_protected_witness :
    (delete_benchmark ["aws_cis_1_5"] "aws_cis_1_5"
          = .error ("Deleting a predefined benchmark is not allowed: " ++ "aws_cis_1_5") ∧
        update_benchmark ["aws_cis_1_5"] [] "aws_cis_1_5"
          = .error ("Changing a predefined benchmark is not allowed: " ++ "aws_cis_1_5") ∧
        ("Deleting a predefined benchmark is not allowed: " ++ "aws_cis_1_5")
          ≠ ("Changing a predefined benchmark is not allowed: " ++ "aws_cis_1_5")) ∧
      delete_benchmark ["aws_cis_1_5"] "mine" = .ok (.deleteB "mine") :=
  ⟨(c8_predefined_benchmarks_protected ["aws_cis_1_5"] [] "aws_cis_1_5").1
      (by decide),
    (c8_predefined_benchmarks_protected ["aws_cis_1_5"] [] "mine").2 (by decide)⟩

/-! ## C7: idempotence of the ancestor/descendant rewriter -/

theorem hasAD_and_term (resolved : List String) (a b : Term) :
    has_ancestor_descendant resolved (a.and_term b)
      = (has_ancestor_descendant resolved a || has_ancestor_descendant resolved b) := by
  cases a <;> cases b <;> simp [Term.and_term, has_ancestor_descendant]

theorem hasAD_ne_all (resolved : List String) (t : Term)
    (h : has_ancestor_descendant resolved t = true) : t ≠ .AllTerm := by
  intro he
  subst he
  simp [has_ancestor_descendant] at h

theorem and_term_of_ne_all (a b : Term) (ha : a ≠ .AllTerm) (hb : b ≠ .AllTerm) :
    a.and_term b = .CombinedTerm a "and" b := by
  cases a <;> cases b <;> simp_all [Term.and_term]

theorem all_and_term (b : Term) : Term.AllTerm.and_term b = b := by
  cases b <;> rfl

theorem hasAD_foldl_and (resolved : List String) :
    ∀ (L : List Term) (acc : Term),
      has_ancestor_descendant resolved (L.foldl Term.and_term acc)
        = (has_ancestor_descendant resolved acc
            || L.any fun c => has_ancestor_descendant resolved c)
  | [], acc => by simp
  | c :: rest, acc => by
    rw [List.foldl_cons, hasAD_foldl_and resolved rest (acc.and_term c),
      hasAD_and_term]
    simp [Bool.or_assoc]

theorem adp_of_not_hasAD (resolved : List String) :
    ∀ t : Term, has_ancestor_descendant resolved t = false →
      ancestor_descendant_predicates resolved t = []
  | .AllTerm, _ => rfl
  | .NotTerm t, h => by
    simp only [has_ancestor_descendant] at h
    simp [ancestor_descendant_predicates, adp_of_not_hasAD resolved t h]
  | .Predicate n op v args, h => by
    simp only [has_ancestor_descendant] at h
    simp [ancestor_descendant_predicates, h]
  | .IsTerm _, _ => rfl
  | .IdTerm _, _ => rfl
  | .FunctionTerm _ _ _, _ => rfl
  | .CombinedTerm l op r, h => by
    simp only [has_ancestor_descendant, Bool.or_eq_false_iff] at h
    simp [ancestor_descendant_predicates, adp_of_not_hasAD resolved l h.1,
      adp_of_not_hasAD resolved r h.2]
  | .MergeTerm pre m none, h => by
    simp only [has_ancestor_descendant] at h
    simp [ancestor_descendant_predicates, adp_of_not_hasAD resolved pre h]
  | .MergeTerm pre m (some post), h => by
    simp only [has_ancestor_descendant, Bool.or_eq_false_iff] at h
    simp [ancestor_descendant_predicates, adp_of_not_hasAD resolved pre h.1,
      adp_of_not_hasAD resolved post h.2]

/-- An atomic conjunct passes through walk_term by being and-appended to the
after_merge accumulator. -/
theorem walk_term_atomic (resolved : List String) (c : Term) (b a : Term)
    (h : atomicAD resolved c = true) :
    walk_term resolved c (b, a) = .ok (b, a.and_term c) := by
  cases c with
  | CombinedTerm l op r =>
    simp only [atomicAD, Bool.and_eq_true, decide_eq_true_eq] at h
    simp [walk_term, h.2]
  | MergeTerm pre m post =>
    simp [atomicAD] at h
  | AllTerm => simp [walk_term]
  | NotTerm t => simp [walk_term]
  | Predicate n op v args => simp [walk_term]
  | IsTerm ks => simp [walk_term]
  | IdTerm i => simp [walk_term]
  | FunctionTerm fn pp args => simp [walk_term]

/-- Walking a left-associated and-chain of atomic conjuncts starting from an
empty after_merge reproduces the chain and leaves before_merge untouched. -/
theorem walk_term_chain (resolved : List String) :
    ∀ L : List Term, (∀ c ∈ L, atomicAD resolved c = true) → ∀ b : Term, L ≠ [] →
      walk_term resolved (L.foldl Term.and_term .AllTerm) (b, .AllTerm)
        = .ok (b, L.foldl Term.and_term .AllTerm) := by
  intro L
  induction L using List.reverseRecOn with
  | nil => exact fun _ b h => absurd rfl h
  | append_singleton l c ih =>
    intro hatomic b _
    have hc : atomicAD resolved c = true := hatomic c (by simp)
    have hchas : has_ancestor_descendant resolved c = true := by
      have h0 := hc
      simp only [atomicAD, Bool.and_eq_true] at h0
      exact h0.1
    have hcne : c ≠ .AllTerm := hasAD_ne_all resolved c hchas
    rw [List.foldl_append, List.foldl_cons, List.foldl_nil]
    match l, ih with
    | [], _ =>
      rw [List.foldl_nil, all_and_term,
        walk_term_atomic resolved c b .AllTerm hc, all_and_term]
    | x :: xs, ih =>
      have hlatomic : ∀ y ∈ x :: xs, atomicAD resolved y = true :=
        fun y hy => hatomic y (List.mem_append_left [c] hy)
      have hXhas : has_ancestor_descendant resolved
          ((x :: xs).foldl Term.and_term .AllTerm) = true := by
        rw [hasAD_foldl_and]
        have h0 := hlatomic x (by simp)
        simp only [atomicAD, Bool.and_eq_true] at h0
        simp [h0.1]
      have hXne : (x :: xs).foldl Term.and_term .AllTerm ≠ .AllTerm :=
        hasAD_ne_all resolved _ hXhas
      have hih := ih hlatomic b (by simp)
      rw [and_term_of_ne_all _ c hXne hcne]
      simp only [walk_term]
      rw [if_neg (by decide), if_pos hXhas, if_pos hchas]
      rw [hih]
      show Except.bind (Except.ok (b, (x :: xs).foldl Term.and_term Term.AllTerm)) _ = _
      simp only [Except.bind]
      rw [walk_term_atomic resolved c b _ hc,
        and_term_of_ne_all _ c hXne hcne]

/-- What a successful walk_term produces: the before_merge accumulator only
ever receives ancestor-free terms, and the after_merge accumulator is the
input extended by a non-empty list of atomic ancestor-carrying conjuncts. -/
theorem walk_term_spec (resolved : List String) :
    ∀ t b0 a0 b1 a1 : Term,
      walk_term resolved t (b0, a0) = .ok (b1, a1) →
      has_ancestor_descendant resolved t = true →
      (has_ancestor_descendant resolved b0 = false →
        has_ancestor_descendant resolved b1 = false) ∧
      ∃ L : List Term, L ≠ [] ∧ (∀ c ∈ L, atomicAD resolved c = true) ∧
        a1 = L.foldl Term.and_term a0
  | .CombinedTerm l op r, b0, a0, b1, a1 => fun hwalk hhas => by
    simp only [walk_term] at hwalk
    by_cases hor : op = "or"
    · subst hor
      simp only [reduceIte, Except.ok.injEq, Prod.mk.injEq] at hwalk
      obtain ⟨hb, ha⟩ := hwalk
      refine ⟨fun h => hb ▸ h, [.CombinedTerm l "or" r], by simp, ?_, ?_⟩
      · intro c hc
        simp only [List.mem_singleton] at hc
        subst hc
        simp [atomicAD, hhas]
      · rw [← ha]
        simp
    · simp only [hor, if_false, reduceIte] at hwalk
      have hhas' : has_ancestor_descendant resolved l = true ∨
          has_ancestor_descendant resolved r = true := by
        simpa [has_ancestor_descendant] using hhas
      by_cases hl : has_ancestor_descendant resolved l = true
      · by_cases hr : has_ancestor_descendant resolved r = true
        · simp only [hl, hr, if_true, reduceIte] at hwalk
          cases hw1 : walk_term resolved l (b0, a0) with
          | error e =>
            rw [hw1] at hwalk
            simp [Bind.bind, Except.bind] at hwalk
          | ok s1 =>
            obtain ⟨bm, am⟩ := s1
            rw [hw1] at hwalk
            simp only [Bind.bind, Except.bind] at hwalk
            obtain ⟨hb1, L1, hL1ne, hL1a, hA1⟩ :=
              walk_term_spec resolved l b0 a0 bm am hw1 hl
            obtain ⟨hb2, L2, hL2ne, hL2a, hA2⟩ :=
              walk_term_spec resolved r bm am b1 a1 hwalk hr
            refine ⟨fun h => hb2 (hb1 h), L1 ++ L2, by simp [hL1ne], ?_, ?_⟩
            · intro c hc
              rcases List.mem_append.mp hc with hc | hc
              exacts [hL1a c hc, hL2a c hc]
            · rw [hA2, hA1, List.foldl_append]
        · simp only [hl, hr, if_true, if_false, reduceIte] at hwalk
          have hrf : has_ancestor_descendant resolved r = false := by
            revert hr
            cases has_ancestor_descendant resolved r <;> simp
          obtain ⟨hb1, L1, hL1ne, hL1a, hA1⟩ :=
            walk_term_spec resolved l (b0.and_term r) a0 b1 a1 hwalk hl
          refine ⟨fun h => hb1 ?_, L1, hL1ne, hL1a, hA1⟩
          rw [hasAD_and_term, h, hrf]
          rfl
      · have hlf : has_ancestor_descendant resolved l = false := by
          revert hl
          cases has_ancestor_descendant resolved l <;> simp
        rcases hhas' with hcontra | hr
        · rw [hcontra] at hlf
          exact absurd hlf (by simp)
        · simp only [hl, hr, hlf, if_true, if_false, reduceIte,
            Bool.false_eq_true] at hwalk
          obtain ⟨hb1, L1, hL1ne, hL1a, hA1⟩ :=
            walk_term_spec resolved r (b0.and_term l) a0 b1 a1 hwalk hr
          refine ⟨fun h => hb1 ?_, L1, hL1ne, hL1a, hA1⟩
          rw [hasAD_and_term, h, hlf]
          rfl
  | .MergeTerm pre m (some post), b0, a0, b1, a1 => fun hwalk hhas => by
    simp only [walk_term] at hwalk
    have hhas' : has_ancestor_descendant resolved pre = true ∨
        has_ancestor_descendant resolved post = true := by
      simpa [has_ancestor_descendant] using hhas
    rw [if_neg (by decide)] at hwalk
    by_cases hl : has_ancestor_descendant resolved pre = true
    · by_cases hr : has_ancestor_descendant resolved post = true
      · simp only [hl, hr, if_true, reduceIte] at hwalk
        cases hw1 : walk_term resolved pre (b0, a0) with
        | error e =>
          rw [hw1] at hwalk
          simp [Bind.bind, Except.bind] at hwalk
        | ok s1 =>
          obtain ⟨bm, am⟩ := s1
          rw [hw1] at hwalk
          simp only [Bind.bind, Except.bind] at hwalk
          obtain ⟨hb1, L1, hL1ne, hL1a, hA1⟩ :=
            walk_term_spec resolved pre b0 a0 bm am hw1 hl
          obtain ⟨hb2, L2, hL2ne, hL2a, hA2⟩ :=
            walk_term_spec resolved post bm am b1 a1 hwalk hr
          refine ⟨fun h => hb2 (hb1 h), L1 ++ L2, by simp [hL1ne], ?_, ?_⟩
          · intro c hc
            rcases List.mem_append.mp hc with hc | hc
            exacts [hL1a c hc, hL2a c hc]
          · rw [hA2, hA1, List.foldl_append]
      · simp only [hl, hr, if_true, if_false, reduceIte] at hwalk
        have hrf : has_ancestor_descendant resolved post = false := by
          revert hr
          cases has_ancestor_descendant resolved post <;> simp
        obtain ⟨hb1, L1, hL1ne, hL1a, hA1⟩ :=
          walk_term_spec resolved pre (b0.and_term post) a0 b1 a1 hwalk hl
        refine ⟨fun h => hb1 ?_, L1, hL1ne, hL1a, hA1⟩
        rw [hasAD_and_term, h, hrf]
        rfl
    · have hlf : has_ancestor_descendant resolved pre = false := by
        revert hl
        cases has_ancestor_descendant resolved pre <;> simp
      rcases hhas' with hcontra | hr
      · rw [hcontra] at hlf
        exact absurd hlf (by simp)
      · simp only [hl, hr, hlf, if_true, if_false, reduceIte,
          Bool.false_eq_true] at hwalk
        obtain ⟨hb1, L1, hL1ne, hL1a, hA1⟩ :=
          walk_term_spec resolved post (b0.and_term pre) a0 b1 a1 hwalk hr
        refine ⟨fun h => hb1 ?_, L1, hL1ne, hL1a, hA1⟩
        rw [hasAD_and_term, h, hlf]
        rfl
  | .MergeTerm pre m none, b0, a0, b1, a1 => fun hwalk hhas => by
    simp only [walk_term] at hwalk
    have hhas' : has_ancestor_descendant resolved pre = true := by
      simpa [has_ancestor_descendant] using hhas
    exact walk_term_spec resolved pre b0 a0 b1 a1 hwalk hhas'
  | .AllTerm, b0, a0, b1, a1 => fun hwalk hhas => by
    simp [has_ancestor_descendant] at hhas
  | .NotTerm t, b0, a0, b1, a1 => fun hwalk hhas => by
    simp only [walk_term, Except.ok.injEq, Prod.mk.injEq] at hwalk
    obtain ⟨hb, ha⟩ := hwalk
    refine ⟨fun h => hb ▸ h, [.NotTerm t], by simp, ?_, by rw [← ha]; simp⟩
    intro c hc
    simp only [List.mem_singleton] at hc
    subst hc
    simp [atomicAD, hhas]
  | .Predicate n op v args, b0, a0, b1, a1 => fun hwalk hhas => by
    simp only [walk_term, Except.ok.injEq, Prod.mk.injEq] at hwalk
    obtain ⟨hb, ha⟩ := hwalk
    refine ⟨fun h => hb ▸ h, [.Predicate n op v args], by simp, ?_, by rw [← ha]; simp⟩
    intro c hc
    simp only [List.mem_singleton] at hc
    subst hc
    simp [atomicAD, hhas]
  | .IsTerm ks, b0, a0, b1, a1 => fun hwalk hhas => by
    simp [has_ancestor_descendant] at hhas
  | .IdTerm i, b0, a0, b1, a1 => fun hwalk hhas => by
    simp [has_ancestor_descendant] at hhas
  | .FunctionTerm fn pp args, b0, a0, b1, a1 => fun hwalk hhas => by
    simp [has_ancestor_descendant] at hhas
termination_by t _ _ _ _ => t.wsize
decreasing_by all_goals (simp [Term.wsize]; try omega)

theorem pyUpdate_cons_head {κ α : Type} [DecidableEq κ] :
    ∀ (D : List (κ × α)) (C : List (κ × α)) (k : κ) (d : α),
      (∀ e ∈ D, e.1 ≠ k) → pyUpdate ((k, d) :: C) D = (k, d) :: pyUpdate C D
  | [], _, _, _, _ => rfl
  | e :: D', C, k, d, h => by
    have he : e.1 ≠ k := h e (by simp)
    have hek : k ≠ e.1 := Ne.symm he
    show pyUpdate (pyInsert ((k, d) :: C) e.1 e.2) D' = _
    have : pyInsert ((k, d) :: C) e.1 e.2 = (k, d) :: pyInsert C e.1 e.2 := by
      simp [pyInsert, hek]
    rw [this, pyUpdate_cons_head D' (pyInsert C e.1 e.2) k d
      (fun x hx => h x (by simp [hx]))]
    rfl

theorem pyUpdate_replace {κ α : Type} [DecidableEq κ] :
    ∀ (D : List (κ × α)) (C : List (κ × α)),
      C.map Prod.fst = D.map Prod.fst → (D.map Prod.fst).Nodup →
      pyUpdate C D = D
  | [], C, hkeys, _ => by
    have : C = [] := by
      cases C with
      | nil => rfl
      | cons e rest => simp at hkeys
    simp [this, pyUpdate]
  | (k, d) :: D', C, hkeys, hnodup => by
    cases C with
    | nil => simp at hkeys
    | cons e C' =>
      obtain ⟨ek, ev⟩ := e
      simp only [List.map_cons, List.cons.injEq] at hkeys
      have hek : ek = k := hkeys.1
      subst hek
      show pyUpdate (pyInsert ((ek, ev) :: C') ek d) D' = (ek, d) :: D'
      have hins : pyInsert ((ek, ev) :: C') ek d = (ek, d) :: C' := by
        simp [pyInsert]
      rw [hins]
      simp only [List.map_cons, List.nodup_cons] at hnodup
      have hfresh : ∀ e ∈ D', e.1 ≠ ek := by
        intro e he hcontra
        exact hnodup.1 (hcontra ▸ List.mem_map_of_mem Prod.fst he)
      rw [pyUpdate_cons_head D' C' ek d hfresh,
        pyUpdate_replace D' C' hkeys.2 hnodup.2]

theorem pyUpdate_append {κ α : Type} [DecidableEq κ] :
    ∀ (D2 : List (κ × α)) (C : List (κ × α)),
      (∀ e ∈ D2, ¬ e.1 ∈ C.map Prod.fst) → (D2.map Prod.fst).Nodup →
      pyUpdate C D2 = C ++ D2
  | [], C, _, _ => by simp [pyUpdate]
  | e :: D2', C, hfresh, hnodup => by
    obtain ⟨k, v⟩ := e
    show pyUpdate (pyInsert C k v) D2' = _
    have hCfresh : ∀ x ∈ C, x.1 ≠ k := by
      intro x hx hcontra
      have hmem : x.1 ∈ C.map Prod.fst := List.mem_map_of_mem Prod.fst hx
      rw [hcontra] at hmem
      exact hfresh (k, v) (by simp) hmem
    rw [pyInsert_fresh C k v hCfresh]
    simp only [List.map_cons, List.nodup_cons] at hnodup
    have hfresh2 : ∀ x ∈ D2', ¬ x.1 ∈ (C ++ [(k, v)]).map Prod.fst := by
      intro x hx
      simp only [List.map_append, List.mem_append, List.map_cons, List.map_nil,
        List.mem_singleton, not_or]
      constructor
      · exact hfresh x (by simp [hx])
      · intro hcontra
        have hmem : x.1 ∈ D2'.map Prod.fst := List.mem_map_of_mem Prod.fst hx
        rw [hcontra] at hmem
        exact hnodup.1 hmem
    rw [pyUpdate_append D2' (C ++ [(k, v)]) hfresh2 hnodup.2]
    simp

theorem keys_pyInsert {κ α : Type} [DecidableEq κ] :
    ∀ (m : List (κ × α)) (k : κ) (v : α),
      (pyInsert m k v).map Prod.fst
        = if k ∈ m.map Prod.fst then m.map Prod.fst else m.map Prod.fst ++ [k]
  | [], k, v => by simp [pyInsert]
  | (k0, v0) :: m', k, v => by
    by_cases h : k0 = k
    · subst h
      simp [pyInsert]
    · have hk0 : k ≠ k0 := Ne.symm h
      have := keys_pyInsert m' k v
      by_cases hmem : k ∈ m'.map Prod.fst
      · simp [pyInsert, h, hmem, this, hk0]
      · simp [pyInsert, h, hmem, this, hk0]

theorem nodup_keys_pyInsert {κ α : Type} [DecidableEq κ] (m : List (κ × α))
    (k : κ) (v : α) (h : (m.map Prod.fst).Nodup) :
    ((pyInsert m k v).map Prod.fst).Nodup := by
  rw [keys_pyInsert]
  by_cases hmem : k ∈ m.map Prod.fst
  · simpa [hmem] using h
  · simp only [hmem, if_false, reduceIte]
    simp [List.nodup_append, h, hmem]

theorem nodup_keys_pyUpdate {κ α : Type} [DecidableEq κ] :
    ∀ (l m : List (κ × α)), (m.map Prod.fst).Nodup →
      ((pyUpdate m l).map Prod.fst).Nodup
  | [], _, h => h
  | e :: l', m, h =>
    nodup_keys_pyUpdate l' (pyInsert m e.1 e.2) (nodup_keys_pyInsert m e.1 e.2 h)

theorem nodup_keys_pyDictOf {κ α : Type} [DecidableEq κ] (l : List (κ × α)) :
    ((pyDictOf l).map Prod.fst).Nodup :=
  nodup_keys_pyUpdate l [] (by simp)

theorem keys_prefix_pyUpdate {κ α : Type} [DecidableEq κ] :
    ∀ (l m : List (κ × α)), m.map Prod.fst <+: (pyUpdate m l).map Prod.fst
  | [], m => List.prefix_refl _
  | e :: l', m => by
    have h1 : m.map Prod.fst <+: (pyInsert m e.1 e.2).map Prod.fst := by
      rw [keys_pyInsert]
      by_cases hmem : e.1 ∈ m.map Prod.fst
      · simp [hmem]
      · simp [hmem]
    exact h1.trans (keys_prefix_pyUpdate l' (pyInsert m e.1 e.2))

theorem pyDictOf_self {κ α : Type} [DecidableEq κ] (l : List (κ × α))
    (h : (l.map Prod.fst).Nodup) : pyDictOf l = l := by
  unfold pyDictOf
  rw [pyUpdate_append l [] (by simp) h]
  simp

theorem pyUpdate_eq_self {κ α : Type} [DecidableEq κ] (C D : List (κ × α))
    (hD : (D.map Prod.fst).Nodup)
    (hpre : C.map Prod.fst <+: D.map Prod.fst) : pyUpdate C D = D := by
  obtain ⟨t, ht⟩ := hpre
  have hkeys1 : (D.take C.length).map Prod.fst = C.map Prod.fst := by
    rw [List.map_take, ← ht, List.take_left' (by simp)]
  have hDkeys : D.map Prod.fst
      = (D.take C.length).map Prod.fst ++ (D.drop C.length).map Prod.fst := by
    rw [← List.map_append, List.take_append_drop]
  have hD' := hD
  rw [hDkeys] at hD'
  obtain ⟨hnodup1, hnodup2, hdisj⟩ := List.nodup_append.mp hD'
  have hfresh : ∀ e ∈ D.drop C.length, ¬ e.1 ∈ (D.take C.length).map Prod.fst := by
    intro e he hc
    exact hdisj hc (List.mem_map_of_mem Prod.fst he)
  calc pyUpdate C D = pyUpdate C (D.take C.length ++ D.drop C.length) := by
        rw [List.take_append_drop]
    _ = pyUpdate (pyUpdate C (D.take C.length)) (D.drop C.length) := by
        unfold pyUpdate
        rw [List.foldl_append]
    _ = pyUpdate (D.take C.length) (D.drop C.length) := by
        rw [pyUpdate_replace (D.take C.length) C hkeys1.symm hnodup1]
    _ = D.take C.length ++ D.drop C.length :=
        pyUpdate_append (D.drop C.length) (D.take C.length) hfresh hnodup2
    _ = D := List.take_append_drop _ _

/-- A keyed association list is reproduced by re-keying its values. -/
theorem keyed_map_self {α : Type} (key : α → String) :
    ∀ m : List (String × α), keyedBy key m →
      m.map (fun e => (key e.2, e.2)) = m
  | [], _ => rfl
  | (k, v) :: m', h => by
    have hk : key v = k := h (k, v) (by simp)
    simp only [List.map_cons, hk]
    rw [keyed_map_self key m' (fun e he => h e (by simp [he]))]

theorem term_with_term (p : Part) (t : Term) : (p.with_term t).term = t := by
  cases p
  rfl

theorem with_term_with_term (p : Part) (t t' : Term) :
    (p.with_term t).with_term t' = p.with_term t' := by
  cases p
  rfl

/-- C7: the ancestor/descendant rewriter is idempotent. Applying the
rewriter to its own (successful) output returns that output unchanged, and
an exception on the first application is the exception of the composition,
so rewriting twice equals rewriting once. -/
theorem c7_rewrite_for_ancestors_descendants_idempotent (resolved : List String)
    (p : Part) :
    (p.rewrite_for_ancestors_descendants resolved).bind
        (Part.rewrite_for_ancestors_descendants resolved)
      = p.rewrite_for_ancestors_descendants resolved := by
  by_cases hhas : has_ancestor_descendant resolved p.term = true
  case neg =>
    have h1 : p.rewrite_for_ancestors_descendants resolved = .ok p := by
      unfold Part.rewrite_for_ancestors_descendants
      rw [if_neg hhas]
    rw [h1]
    show Except.bind (.ok p) _ = .ok p
    simp only [Except.bind]
    exact h1
  case pos =>
    cases hw : walk_term resolved p.term (.AllTerm, .AllTerm) with
    | error e =>
      have h1 : p.rewrite_for_ancestors_descendants resolved = .error e := by
        unfold Part.rewrite_for_ancestors_descendants
        rw [if_pos hhas]
        simp only [hw, Bind.bind, Except.bind]
      rw [h1]
      rfl
    | ok s =>
      obtain ⟨b, a⟩ := s
      cases hn : mapMExcept name_predicate (ancestor_descendant_predicates resolved a)
        with
      | error e =>
        have h1 : p.rewrite_for_ancestors_descendants resolved = .error e := by
          unfold Part.rewrite_for_ancestors_descendants
          rw [if_pos hhas]
          simp only [hw, hn, Bind.bind, Except.bind]
        rw [h1]
        rfl
      | ok ns =>
        obtain ⟨hbpres, L, hLne, hLatomic, hA⟩ :=
          walk_term_spec resolved p.term .AllTerm .AllTerm b a hw hhas
        have hbf : has_ancestor_descendant resolved b = false := hbpres rfl
        have haT : has_ancestor_descendant resolved a = true := by
          rw [hA, hasAD_foldl_and]
          match L, hLne with
          | c :: L', _ =>
            have hc := hLatomic c (by simp)
            simp only [atomicAD, Bool.and_eq_true] at hc
            simp [hc.1]
        have hrw : p.rewrite_for_ancestors_descendants resolved
            = .ok (p.with_term (.MergeTerm b
                ((pyUpdate
                  (pyDictOf (((dedupFirst ns).map fun g =>
                    merge_query_for g.1 g.2).map fun mq => (mq.name, mq)))
                  (pyDictOf (p.term.merges.map fun mq => (mq.name, mq)))).map
                  Prod.snd)
                (some a))) := by
          unfold Part.rewrite_for_ancestors_descendants
          rw [if_pos hhas]
          simp only [hw, hn, Bind.bind, Except.bind]
        rw [hrw]
        show Except.bind (.ok _) _ = .ok _
        simp only [Except.bind]
        have hterm := term_with_term p (Term.MergeTerm b
          ((pyUpdate
            (pyDictOf (((dedupFirst ns).map fun g =>
              merge_query_for g.1 g.2).map fun mq => (mq.name, mq)))
            (pyDictOf (p.term.merges.map fun mq => (mq.name, mq)))).map Prod.snd)
          (some a))
        have hkeyedC : keyedBy MergeQuery.name
            (pyDictOf (((dedupFirst ns).map fun g =>
              merge_query_for g.1 g.2).map fun mq => (mq.name, mq))) := by
          apply keyedBy_pyDictOf
          intro e he
          simp only [List.map_map, List.mem_map] at he
          obtain ⟨g, _, hg⟩ := he
          rw [← hg]
          rfl
        have hkeyedE : keyedBy MergeQuery.name
            (pyDictOf (p.term.merges.map fun mq => (mq.name, mq))) := by
          apply keyedBy_pyDictOf
          intro e he
          simp only [List.mem_map] at he
          obtain ⟨mq, _, hmq⟩ := he
          rw [← hmq]
        have hkeyedD : keyedBy MergeQuery.name
            (pyUpdate
              (pyDictOf (((dedupFirst ns).map fun g =>
                merge_query_for g.1 g.2).map fun mq => (mq.name, mq)))
              (pyDictOf (p.term.merges.map fun mq => (mq.name, mq)))) :=
          keyedBy_pyUpdate _ _ _ hkeyedC hkeyedE
        have hnodupD : ((pyUpdate
            (pyDictOf (((dedupFirst ns).map fun g =>
              merge_query_for g.1 g.2).map fun mq => (mq.name, mq)))
            (pyDictOf (p.term.merges.map fun mq =>
              (mq.name, mq)))).map Prod.fst).Nodup :=
          nodup_keys_pyUpdate _ _ (nodup_keys_pyDictOf _)
        have hqs_map : ((pyUpdate
            (pyDictOf (((dedupFirst ns).map fun g =>
              merge_query_for g.1 g.2).map fun mq => (mq.name, mq)))
            (pyDictOf (p.term.merges.map fun mq => (mq.name, mq)))).map
              Prod.snd).map (fun mq => (mq.name, mq))
            = pyUpdate
              (pyDictOf (((dedupFirst ns).map fun g =>
                merge_query_for g.1 g.2).map fun mq => (mq.name, mq)))
              (pyDictOf (p.term.merges.map fun mq => (mq.name, mq))) := by
          rw [List.map_map]
          exact keyed_map_self MergeQuery.name _ hkeyedD
        have hw2 : walk_term resolved (Term.MergeTerm b
            ((pyUpdate
              (pyDictOf (((dedupFirst ns).map fun g =>
                merge_query_for g.1 g.2).map fun mq => (mq.name, mq)))
              (pyDictOf (p.term.merges.map fun mq => (mq.name, mq)))).map
              Prod.snd)
            (some a)) (.AllTerm, .AllTerm) = .ok (b, a) := by
          simp only [walk_term]
          rw [if_neg (by decide), if_neg (by simp [hbf]), if_pos haT, all_and_term]
          rw [hA]
          exact walk_term_chain resolved L hLatomic b hLne
        unfold Part.rewrite_for_ancestors_descendants
        rw [hterm]
        rw [if_pos (by simp [has_ancestor_descendant, hbf, haT])]
        simp only [hw2, Bind.bind, Except.bind]
        rw [hn]
        simp only [Except.bind, Term.merges]
        simp only [Term.merges] at hqs_map hnodupD
        rw [hqs_map]
        rw [pyDictOf_self _ hnodupD]
        rw [pyUpdate_eq_self _ _ hnodupD (keys_prefix_pyUpdate _ _)]
        rw [with_term_with_term]

end Resoto
